import Mathlib

/-
  Verification development for the wsg disk-space reclaimer.

  Shallow embedding of the core of the program: the recognition-and-pruning
  directory walk (src/garbage.rs), the size calculator and result cache
  (src/utils.rs), the deletion executor (src/garbage.rs), and the
  path-to-cache-location hash (src/utils.rs, generate_base64_from_path).

  Modelling conventions:
  - A filesystem path is its list of components (std::path::Path on Unix,
    compared component-wise by starts_with / join, which is how the source
    uses paths everywhere).
  - The filesystem seen by the scanner is an immutable tree: the scan neither
    creates nor deletes entries, and the walk never follows symbolic links.
  - walkdir traversal is depth-first, directory before contents, children in
    directory order; the tree model fixes the child order as the list order.
  - Machine integers (u64 sizes, u32 counters) are modelled as Nat; the
    counters in question count filesystem objects and stay far below 2^32.
  - Fallible filesystem calls are modelled with Option / Except.
-/

namespace Wsg

/-- A filesystem path as its list of components. -/
abbrev FsPath := List String

/-! ### Filesystem trees

A static snapshot of a directory tree.  `FsForest` is the ordered list of
named children of a directory; it is a separate inductive (rather than
`List (String × FsTree)`) so that all functions below are structural
recursions that the kernel can evaluate. -/

mutual

inductive FsTree where
  | file (len : Nat)
  | dir (children : FsForest)

inductive FsForest where
  | nil
  | cons (name : String) (t : FsTree) (rest : FsForest)

end

/-- Does the forest contain a child of the given name? -/
def FsForest.hasName : FsForest → String → Bool
  | .nil, _ => false
  | .cons n _ rest, m => n == m || rest.hasName m

mutual

/-- Well-formedness: sibling names are distinct, recursively (real directories
never contain two entries of the same name). -/
def FsTree.wfb : FsTree → Bool
  | .file _ => true
  | .dir cs => cs.wfb

def FsForest.wfb : FsForest → Bool
  | .nil => true
  | .cons n t rest => !rest.hasName n && t.wfb && rest.wfb

end

/-- First child of the given name, in directory order. -/
def FsForest.lookupName : FsForest → String → Option FsTree
  | .nil, _ => none
  | .cons n t rest, m => if n == m then some t else rest.lookupName m

/-- Resolve a relative path inside a tree: the subtree at that path, if the
path exists.  Models `Path::exists` (isSome) and metadata inspection for a
path joined onto the tree's own location. -/
def resolve : FsTree → FsPath → Option FsTree
  | t, [] => some t
  | .file _, _ :: _ => none
  | .dir cs, n :: rest =>
    match cs.lookupName n with
    | none => none
    | some c => resolve c rest

mutual

/-- Total bytes of all files in a tree (a file contributes its length, a
directory the recursive sum of its contents).  This is the specification-side
measure of on-disk bytes. -/
def FsTree.bytes : FsTree → Nat
  | .file len => len
  | .dir cs => cs.bytes

def FsForest.bytes : FsForest → Nat
  | .nil => 0
  | .cons _ t rest => t.bytes + rest.bytes

end

mutual

/-- Embeds `dir_size` (src/utils.rs:14-24): `fs::read_dir` on the path, then
`try_fold` the entries, recursing into directories and adding file lengths.
`read_dir` of a regular file fails, hence `none` on a file node; inside a
static tree no other I/O failure arises. -/
def dir_size : FsTree → Option Nat
  | .file _ => none
  | .dir cs => dirSizeEntries cs

/-- The `try_fold` over one directory's entries inside `dir_size`. -/
def dirSizeEntries : FsForest → Option Nat
  | .nil => some 0
  | .cons _ (.file len) rest => (dirSizeEntries rest).map fun acc => acc + len
  | .cons _ (.dir cs) rest =>
    match dirSizeEntries cs with
    | none => none
    | some s => (dirSizeEntries rest).map fun acc => acc + s

end

mutual

/-- The walkdir traversal (depth-first, directory before contents, children
in directory order, links never followed): the list of visited entries, each
with its absolute path and its subtree. -/
def walk (p : FsPath) : FsTree → List (FsPath × FsTree)
  | .file len => [(p, .file len)]
  | .dir cs => (p, .dir cs) :: walkForest p cs

def walkForest (p : FsPath) : FsForest → List (FsPath × FsTree)
  | .nil => []
  | .cons n t rest => walk (p ++ [n]) t ++ walkForest p rest

end

/-! ### Recognizers and match results (src/garbage.rs) -/

/-- `FileType` (src/garbage.rs:34-38).  The payload is the relative marker
path (components of the `String` value). -/
inductive FileType where
  | file (v : FsPath)
  | directory (v : FsPath)
deriving DecidableEq

/-- The value extracted from either constructor, exactly as the two `match`
arms at src/garbage.rs:106-109 and 115-118 do. -/
def FileType.value : FileType → FsPath
  | .file v => v
  | .directory v => v

/-- `GarbageRecognizer` (src/garbage.rs:13-18). -/
structure GarbageRecognizer where
  name : String
  recognize : List FileType
  delete : List FileType
deriving DecidableEq

/-- `GarbageIndex` (src/garbage.rs:49-53). -/
inductive GarbageIndex where
  | id (n : Nat)
  | all
deriving DecidableEq

/-- `GarbageRecognizerResult` (src/garbage.rs:40-47). -/
structure GarbageRecognizerResult where
  index : GarbageIndex
  recognizer_name : String
  directory : FsPath
  size : Nat
  deletable : List FsPath
deriving DecidableEq

/-- The mutable state of `find_garbage_in_directory`'s loop:
`ignored_subdirectories`, `results`, `ident_counter`. -/
structure ScanState where
  ignored : List FsPath
  results : List GarbageRecognizerResult
  counter : Nat

/-- `file_path.exists()` for a marker joined onto the visited directory. -/
def markerExists (sub : FsTree) (m : FileType) : Bool :=
  (resolve sub m.value).isSome

/-- `HashSet::insert` on the ignored set (no duplicates). -/
def insertIgnored (q : FsPath) (l : List FsPath) : List FsPath :=
  if q ∈ l then l else q :: l

/-- `dir_size(&deletable_content_path).unwrap_or_default()`
(src/garbage.rs:121). -/
def deletableSizeAt (sub : FsTree) (m : FileType) : Nat :=
  match resolve sub m.value with
  | some t => (dir_size t).getD 0
  | none => 0

/-- The body of the recognizer loop (src/garbage.rs:101-141) for one
recognizer at one visited directory: compute `contains_recognitions`, find
the first existing deletable marker (the short-circuiting `any` with its
side effects on `directory_size`, `ignored_subdirectories` and
`deletable_files`), and push a result when both flags hold.  Note that the
insertion into the ignored set happens whenever a deletable marker exists,
whether or not `contains_recognitions` holds. -/
def processRecognizer (p : FsPath) (sub : FsTree) (s : ScanState)
    (r : GarbageRecognizer) : ScanState :=
  let contains_recognitions := r.recognize.any fun m => markerExists sub m
  match r.delete.find? (fun m => markerExists sub m) with
  | none => s
  | some m =>
    let q := p ++ m.value
    let sz := deletableSizeAt sub m
    let ignored := insertIgnored q s.ignored
    if contains_recognitions then
      { ignored := ignored
        results := s.results ++ [⟨.id s.counter, r.name, p, sz, [q]⟩]
        counter := s.counter + 1 }
    else
      { s with ignored := ignored }

/-- One iteration of the walk loop (src/garbage.rs:85-142): skip plain files,
skip entries equal to or below an ignored subtree (`starts_with`), otherwise
run every recognizer. -/
def processEntry (recs : List GarbageRecognizer) (s : ScanState)
    (e : FsPath × FsTree) : ScanState :=
  match e.2 with
  | .file _ => s
  | .dir _ =>
    if s.ignored.any (fun q => q.isPrefixOf e.1) then s
    else recs.foldl (processRecognizer e.1 e.2) s

/-- `find_garbage_in_directory` (src/garbage.rs:77-145).  The recognizer set
of `AppState` is modelled as a list; its iteration order is the list order. -/
def find_garbage_in_directory (p : FsPath) (t : FsTree)
    (recs : List GarbageRecognizer) : List GarbageRecognizerResult :=
  ((walk p t).foldl (processEntry recs) ⟨[], [], 0⟩).results

/-- `compute_deletable_size_from_garbage_results` (src/garbage.rs:147-149). -/
def compute_deletable_size_from_garbage_results
    (results : List GarbageRecognizerResult) : Nat :=
  (results.map (·.size)).sum

/-- `filter_garbage_from_ids` (src/garbage.rs:249-261). -/
def filter_garbage_from_ids (garbage : List GarbageRecognizerResult)
    (ids : List GarbageIndex) : List GarbageRecognizerResult :=
  if GarbageIndex.all ∈ ids then garbage
  else garbage.filter fun r => decide (r.index ∈ ids)

/-! ### Deletion executor (src/garbage.rs:151-247)

The deletion phase runs against the live filesystem, which by then may
differ from the scanned snapshot; it only ever probes metadata of given
paths and removes them.  It is modelled as a flat association of paths to
metadata kinds, threaded through the executor. -/

/-- The `is_dir` / `is_file` outcome of a metadata probe (`other` covers
entries that are neither, e.g. symbolic links). -/
inductive FsMeta where
  | dir
  | file
  | other
deriving DecidableEq

/-- The live filesystem at deletion time: existing paths and their kinds. -/
abbrev DeletionFs := List (FsPath × FsMeta)

/-- `path.metadata()`: `some` kind when the path exists, `none` otherwise
(the probe fails with a not-found error). -/
def metadataOf (fs : DeletionFs) (p : FsPath) : Option FsMeta :=
  (fs.find? (fun e => e.1 == p)).map (·.2)

/-- The stringified `std::io::Error` for a vanished path, used both by the
failed metadata probe and by failed removals. -/
def ioNotFoundMsg : String := "No such file or directory (os error 2)"

/-- `DeleteOperationResult` (src/garbage.rs:224-229). -/
structure DeleteOperationResult where
  path : FsPath
  success : Bool
  error_message : Option String
deriving DecidableEq

/-- `DeleteOperationResult::success` (src/garbage.rs:232-238). -/
def successResult (p : FsPath) : DeleteOperationResult := ⟨p, true, none⟩

/-- `DeleteOperationResult::failure` (src/garbage.rs:240-246). -/
def failureResult (p : FsPath) (msg : Option String) : DeleteOperationResult :=
  ⟨p, false, msg⟩

/-- `fs::remove_dir_all`: removes the path and everything below it;
fails when the path does not exist. -/
def remove_dir_all (fs : DeletionFs) (p : FsPath) :
    Except String DeletionFs :=
  match metadataOf fs p with
  | none => .error ioNotFoundMsg
  | some _ => .ok (fs.filter fun e => !(p.isPrefixOf e.1))

/-- `fs::remove_file`: removes a single non-directory entry; fails when the
path does not exist or is a directory. -/
def remove_file (fs : DeletionFs) (p : FsPath) : Except String DeletionFs :=
  match metadataOf fs p with
  | none => .error ioNotFoundMsg
  | some .dir => .error "Is a directory (os error 21)"
  | some _ => .ok (fs.filter fun e => !(e.1 == p))

/-- `delete_dir` / `delete_file` wrapped through `result_of_deletion`
(src/garbage.rs:194-207): success or a failure with the stringified cause. -/
def resultOfDeletion (p : FsPath) (fs : DeletionFs)
    (r : Except String DeletionFs) : DeleteOperationResult × DeletionFs :=
  match r with
  | .ok fs' => (successResult p, fs')
  | .error e => (failureResult p (some e), fs)

/-- The per-path body of `delete_deletable_from_garbage_recognizer_result`
(src/garbage.rs:175-188), embedded verbatim: probe the metadata; on error
record a failure carrying the stringified cause.  The second branch repeats
`metadata.is_dir()` exactly as the source does at src/garbage.rs:179, which
makes the `delete_file` call unreachable; a regular file therefore falls
through to `DeleteOperationResult::failure(path, None)`. -/
def deletePath (fs : DeletionFs) (p : FsPath) :
    DeleteOperationResult × DeletionFs :=
  match metadataOf fs p with
  | none => (failureResult p (some ioNotFoundMsg), fs)
  | some md =>
    if md = .dir then resultOfDeletion p fs (remove_dir_all fs p)
    else if md = .dir then resultOfDeletion p fs (remove_file fs p)
    else (failureResult p none, fs)

/-- `DeleteOperationSelection` (src/garbage.rs:209-213). -/
structure DeleteOperationSelection where
  name : String
  result : List DeleteOperationResult
deriving DecidableEq

/-- The fold over one match's `deletable` list, collecting per-path results
in order while the deletions mutate the filesystem. -/
def deletePaths (fs : DeletionFs) :
    List FsPath → List DeleteOperationResult × DeletionFs
  | [] => ([], fs)
  | p :: rest =>
    let (r, fs') := deletePath fs p
    let (rs, fs'') := deletePaths fs' rest
    (r :: rs, fs'')

/-- `delete_deletable_from_garbage_recognizer_result`
(src/garbage.rs:169-192). -/
def delete_deletable_from_garbage_recognizer_result (fs : DeletionFs)
    (r : GarbageRecognizerResult) : DeleteOperationSelection × DeletionFs :=
  let (rs, fs') := deletePaths fs r.deletable
  (⟨r.recognizer_name, rs⟩, fs')

/-- The error enum `GarbageError` (src/error.rs:3-8; the `InvalidCache`
variant is the one `read_garbage_result_vec_cache` returns for an expired
entry at src/utils.rs:85). -/
inductive GarbageError where
  | ioError (msg : String)
  | walkdirError (msg : String)
  | serializationError (msg : String)
  | invalidCache
deriving DecidableEq

/-- The map at src/garbage.rs:161-164 over the selected matches, collecting
each match's deletion report in order. -/
def cleanLoop (fs : DeletionFs) :
    List GarbageRecognizerResult →
    List DeleteOperationSelection × DeletionFs
  | [] => ([], fs)
  | g :: rest =>
    let (sel, fs') := delete_deletable_from_garbage_recognizer_result fs g
    let (sels, fs'') := cleanLoop fs' rest
    (sel :: sels, fs'')

/-- `clean_garbage_from_vec` (src/garbage.rs:158-167): map the per-match
deletion over the selection and wrap the collected reports in `Ok`. -/
def clean_garbage_from_vec (fs : DeletionFs)
    (garbage : List GarbageRecognizerResult) :
    Except GarbageError (List DeleteOperationSelection) × DeletionFs :=
  let (sels, fs') := cleanLoop fs garbage
  (.ok sels, fs')

/-! ### Path-to-cache-location hash (src/utils.rs:129-136)

`generate_base64_from_path` feeds the path through `DefaultHasher`
(SipHash-1-3 with zero keys) via the `Hash` impl of `std::path::Path`, then
base64-encodes the big-endian bytes of the 64-bit digest with the standard
alphabet and no padding.

`Path::hash` on Unix hashes the path's bytes in normalized form: it writes
each component's bytes, skipping separators, repeated separators, and a `.`
component that follows a separator, and finally writes the total number of
component bytes hashed (`write_usize`, little-endian).  The input here is
the raw path string as a character list. -/

/-- The separator byte on Unix. -/
def sepChar : Char := '/'

/-- The chunk scanner of `Path::hash`: in mode `false` it is accumulating a
component (reversed in `cur`); in mode `true` it has just consumed a
separator and skips repeated separators and a `.` component standing alone
before a separator or the end, exactly as the hash impl does. -/
def chunksGo : Bool → List Char → List Char → List (List Char)
  | false, cur, [] => if cur.isEmpty then [] else [cur.reverse]
  | false, cur, c :: rest =>
    if c = sepChar then
      (if cur.isEmpty then [] else [cur.reverse]) ++ chunksGo true [] rest
    else chunksGo false (c :: cur) rest
  | true, _, [] => []
  | true, _, c :: rest =>
    if c = sepChar then chunksGo true [] rest
    else if c = '.' ∧ (rest = [] ∨ rest.head? = some sepChar) then
      chunksGo true [] rest
    else chunksGo false [c] rest

/-- The normalized component chunks `Path::hash` feeds to the hasher. -/
def pathChunks (p : List Char) : List (List Char) :=
  chunksGo false [] p

/-- Standard UTF-8 encoding of one character. -/
def charUtf8 (c : Char) : List Nat :=
  let n := c.toNat
  if n < 0x80 then [n]
  else if n < 0x800 then
    [0xC0 ||| (n >>> 6), 0x80 ||| (n &&& 0x3F)]
  else if n < 0x10000 then
    [0xE0 ||| (n >>> 12), 0x80 ||| ((n >>> 6) &&& 0x3F), 0x80 ||| (n &&& 0x3F)]
  else
    [0xF0 ||| (n >>> 18), 0x80 ||| ((n >>> 12) &&& 0x3F),
     0x80 ||| ((n >>> 6) &&& 0x3F), 0x80 ||| (n &&& 0x3F)]

/-- UTF-8 bytes of a character list. -/
def strBytes (l : List Char) : List Nat :=
  l.flatMap charUtf8

/-- 2^64. -/
def w64 : Nat := 18446744073709551616

/-- Keep a value in 64 bits. -/
def m64 (n : Nat) : Nat := n % w64

/-- 64-bit left rotation. -/
def rotl64 (x b : Nat) : Nat :=
  m64 (x <<< b) ||| (x >>> (64 - b))

/-- The four SipHash lanes. -/
structure SipState where
  v0 : Nat
  v1 : Nat
  v2 : Nat
  v3 : Nat

/-- One SipHash round. -/
def sipRound (s : SipState) : SipState :=
  let v0 := m64 (s.v0 + s.v1)
  let v1 := rotl64 s.v1 13
  let v1 := v1 ^^^ v0
  let v0 := rotl64 v0 32
  let v2 := m64 (s.v2 + s.v3)
  let v3 := rotl64 s.v3 16
  let v3 := v3 ^^^ v2
  let v0 := m64 (v0 + v3)
  let v3 := rotl64 v3 21
  let v3 := v3 ^^^ v0
  let v2 := m64 (v2 + v1)
  let v1 := rotl64 v1 17
  let v1 := v1 ^^^ v2
  let v2 := rotl64 v2 32
  ⟨v0, v1, v2, v3⟩

/-- Absorb one 8-byte little-endian message word (SipHash-1-3: one
compression round per word). -/
def sipCompress (s : SipState) (mw : Nat) : SipState :=
  let s := { s with v3 := s.v3 ^^^ mw }
  let s := sipRound s
  { s with v0 := s.v0 ^^^ mw }

/-- Little-endian value of a byte list. -/
def leWord : List Nat → Nat
  | [] => 0
  | b :: rest => b + 256 * leWord rest

/-- Absorb all full 8-byte words, returning the remaining tail bytes. -/
def sipBlocks (s : SipState) : List Nat → SipState × List Nat
  | b0 :: b1 :: b2 :: b3 :: b4 :: b5 :: b6 :: b7 :: rest =>
    sipBlocks (sipCompress s (leWord [b0, b1, b2, b3, b4, b5, b6, b7])) rest
  | tail => (s, tail)

/-- SipHash-1-3 with zero keys (`DefaultHasher::new()`) over a byte list. -/
def siphash13 (msg : List Nat) : Nat :=
  let s0 : SipState :=
    ⟨0x736f6d6570736575, 0x646f72616e646f6d,
     0x6c7967656e657261, 0x7465646279746573⟩
  let (s, tail) := sipBlocks s0 msg
  let b := ((msg.length % 256) <<< 56) ||| leWord tail
  let s := { s with v3 := s.v3 ^^^ b }
  let s := sipRound s
  let s := { s with v0 := s.v0 ^^^ b }
  let s := { s with v2 := s.v2 ^^^ 0xff }
  let s := sipRound (sipRound (sipRound s))
  ((s.v0 ^^^ s.v1) ^^^ s.v2) ^^^ s.v3

/-- Big-endian bytes of a value, `k` bytes wide (`u64::to_be_bytes`). -/
def beBytes : Nat → Nat → List Nat
  | 0, _ => []
  | k + 1, n => (n >>> (8 * k)) % 256 :: beBytes k n

/-- Little-endian bytes of a value, `k` bytes wide
(`usize::to_ne_bytes` on a little-endian machine). -/
def lePad : Nat → Nat → List Nat
  | 0, _ => []
  | k + 1, n => n % 256 :: lePad k (n >>> 8)

/-- The standard base64 alphabet. -/
def b64Alphabet : List Char :=
  "ABCDEFGHIJKLMNOPQRSTUVWXYZabcdefghijklmnopqrstuvwxyz0123456789+/".toList

/-- One alphabet character. -/
def b64Char (n : Nat) : Char := b64Alphabet.getD n 'A'

/-- Base64 encoding, standard alphabet, no padding
(`general_purpose::STANDARD_NO_PAD`). -/
def b64Encode : List Nat → List Char
  | [] => []
  | [a] => [b64Char (a >>> 2), b64Char ((a &&& 3) <<< 4)]
  | [a, b] =>
    [b64Char (a >>> 2), b64Char (((a &&& 3) <<< 4) ||| (b >>> 4)),
     b64Char ((b &&& 15) <<< 2)]
  | a :: b :: c :: rest =>
    b64Char (a >>> 2) :: b64Char (((a &&& 3) <<< 4) ||| (b >>> 4)) ::
    b64Char (((b &&& 15) <<< 2) ||| (c >>> 6)) :: b64Char (c &&& 63) ::
    b64Encode rest

/-- The byte stream `Path::hash` writes to the hasher for a path: the
component chunk bytes followed by `write_usize` of the chunk byte count. -/
def pathHashMessage (p : List Char) : List Nat :=
  let chunkBytes := ((pathChunks p).map strBytes).flatten
  chunkBytes ++ lePad 8 chunkBytes.length

/-- `generate_base64_from_path` (src/utils.rs:129-136). -/
def generate_base64_from_path (p : List Char) : String :=
  String.mk (b64Encode (beBytes 8 (siphash13 (pathHashMessage p))))

/-! ### Result cache (src/utils.rs:39-111)

One file per scanned root under the `wsg/` temp namespace, named by
`generate_base64_from_path`; the file modification time is the freshness
signal.  The cache directory is modelled as a map from file name to entry;
times are seconds.  The serialized JSON round-trips the
`Vec<GarbageRecognizerResult>` faithfully (serde derive on both sides), so
an entry stores the result list itself. -/

/-- One cache file: its mtime and its deserialized contents. -/
structure CacheEntry where
  mtime : Nat
  content : List GarbageRecognizerResult
deriving DecidableEq

/-- The `wsg/` cache directory: file name to entry. -/
abbrev CacheMap := List (String × CacheEntry)

/-- Does a cache file of this name exist (and what does it hold)? -/
def cacheFind (c : CacheMap) (k : String) : Option CacheEntry :=
  (c.find? (fun e => e.1 == k)).map (·.2)

/-- `File::create` + `write_all`: create or truncate the file, setting its
mtime to the current time. -/
def cacheStore (c : CacheMap) (k : String) (mtime : Nat)
    (content : List GarbageRecognizerResult) : CacheMap :=
  (k, ⟨mtime, content⟩) :: c.filter fun e => !(e.1 == k)

/-- `is_cache_durable` (src/utils.rs:95-97): the current time is strictly
before the entry's estimated expiry time. -/
def is_cache_durable (estimated_time now : Nat) : Bool :=
  now < estimated_time

/-- The default TTL, `Duration::from_secs(60 * 5)`. -/
def defaultTtl : Nat := 60 * 5

/-- `read_garbage_result_vec_cache` (src/utils.rs:70-93): open the cache
file (not-found surfaces the `io::Error` as `GarbageError::IOError`), check
mtime + ttl against now (failing with `InvalidCache` when not durable), then
deserialize the contents. -/
def read_garbage_result_vec_cache (c : CacheMap) (from_path : List Char)
    (cache_durability : Option Nat) (now : Nat) :
    Except GarbageError (List GarbageRecognizerResult) :=
  let path_hash := generate_base64_from_path from_path
  match cacheFind c path_hash with
  | none => .error (.ioError ioNotFoundMsg)
  | some entry =>
    let estimated_time := entry.mtime + cache_durability.getD defaultTtl
    if is_cache_durable estimated_time now then .ok entry.content
    else .error .invalidCache

/-- `write_garbage_result_vec_cache` (src/utils.rs:39-68): if a cache file
for this root already exists and is still durable, skip the write and return
its location unchanged; otherwise serialize and (over)write the file. -/
def write_garbage_result_vec_cache (c : CacheMap) (from_path : List Char)
    (result_list : List GarbageRecognizerResult)
    (cache_durability : Option Nat) (now : Nat) :
    Except GarbageError String × CacheMap :=
  let path_hash := generate_base64_from_path from_path
  match cacheFind c path_hash with
  | some entry =>
    let estimated_time := entry.mtime + cache_durability.getD defaultTtl
    if is_cache_durable estimated_time now then (.ok path_hash, c)
    else (.ok path_hash, cacheStore c path_hash now result_list)
  | none => (.ok path_hash, cacheStore c path_hash now result_list)

/-! ### Specification-side notions -/

/-- The built-in recognizer registry (src/recognizer.rs:3-21). -/
def available_recognizer : List GarbageRecognizer :=
  [⟨"Flutter", [.file ["pubspec.yaml"]], [.directory ["build"]]⟩,
   ⟨"NodeJS", [.file ["package.json"]], [.directory ["node_modules"]]⟩,
   ⟨"Rust", [.file ["Cargo.toml"]], [.directory ["target"]]⟩]

/-- Resolve an absolute path against the scanned snapshot rooted at `root`. -/
def resolveAbs (root : FsPath) (t : FsTree) (p : FsPath) : Option FsTree :=
  if root.isPrefixOf p then resolve t (p.drop root.length) else none

/-- The byte contribution of one walk entry to the total under `q`: a file
contributes its length when its path is at or under `q`. -/
def entryWeight (q : FsPath) (e : FsPath × FsTree) : Nat :=
  match e.2 with
  | .file n => if q.isPrefixOf e.1 then n else 0
  | .dir _ => 0

/-- True on-disk byte total at or under an absolute path at scan time: the
sum of the lengths of every file whose path extends `q`. -/
def bytesUnder (root : FsPath) (t : FsTree) (q : FsPath) : Nat :=
  ((walk root t).map (entryWeight q)).sum

/-- Does the absolute path resolve to a directory of the scanned snapshot? -/
def isDirAt (root : FsPath) (t : FsTree) (q : FsPath) : Bool :=
  match resolveAbs root t q with
  | some (.dir _) => true
  | _ => false

/-- Two paths neither of which sits at or below the other. -/
def pathsIndep (q q' : FsPath) : Prop := ¬ q <+: q' ∧ ¬ q' <+: q

instance (q q' : FsPath) : Decidable (pathsIndep q q') := by
  unfold pathsIndep
  infer_instance

/-- The pruning invariant of the specification: among all deletable paths
reported by one scan (across matches and within a match), no path is equal
to or a descendant of another. -/
def deletableOverlapFree (rs : List GarbageRecognizerResult) : Prop :=
  (rs.flatMap (·.deletable)).Pairwise pathsIndep

/-- Number of failed per-path outcomes in a deletion report. -/
def failureCount (sels : List DeleteOperationSelection) : Nat :=
  ((sels.flatMap (·.result)).filter fun r => !r.success).length

/-! ### Concrete material shared by witnesses and counterexamples -/

/-- A sample cached match (mirrors the fixtures of the cache unit test in
src/utils.rs). -/
def sampleRust : GarbageRecognizerResult :=
  ⟨.id 0, "Rust", ["Users", "testuser", "Projects"], 0, []⟩

/-- A second sample cached match. -/
def sampleFlutter : GarbageRecognizerResult :=
  ⟨.id 1, "Flutter", ["Users", "testuser", "Projects", "example"], 0,
   [["Users", "testuser", "Projects", "example", "target"]]⟩

/-! ### C9: filtering a cached list by identifiers -/

/-- C9: filtering the cached list is a pure function of its inputs: with the
"all" sentinel among the identifiers the whole list is returned unchanged;
otherwise the result is a sublist of the input (original order) whose
members are exactly the cached matches whose index is among the given
identifiers. -/
theorem c9_filter_garbage_from_ids_pure (garbage : List GarbageRecognizerResult)
    (ids : List GarbageIndex) :
    (GarbageIndex.all ∈ ids → filter_garbage_from_ids garbage ids = garbage) ∧
    (GarbageIndex.all ∉ ids →
      (filter_garbage_from_ids garbage ids).Sublist garbage ∧
      ∀ r, r ∈ filter_garbage_from_ids garbage ids ↔
        r ∈ garbage ∧ r.index ∈ ids) := by
  constructor
  · intro h
    simp [filter_garbage_from_ids, h]
  · intro h
    unfold filter_garbage_from_ids
    rw [if_neg h]
    refine ⟨List.filter_sublist _, ?_⟩
    intro r
    simp [List.mem_filter]

/-- Witness for C9 at concrete inputs: filtering two cached matches by the
single identifier 1 keeps exactly the match of index 1, in order. -/
theorem c9_filter_witness :
    (filter_garbage_from_ids [sampleRust, sampleFlutter]
      [GarbageIndex.id 1]).Sublist [sampleRust, sampleFlutter] ∧
    ∀ r, r ∈ filter_garbage_from_ids [sampleRust, sampleFlutter]
        [GarbageIndex.id 1] ↔
      r ∈ [sampleRust, sampleFlutter] ∧ r.index ∈ [GarbageIndex.id 1] :=
  (c9_filter_garbage_from_ids_pure [sampleRust, sampleFlutter]
    [GarbageIndex.id 1]).2 (by decide)

/-! ### C1 and C4: the deletion executor

The dispatch at src/garbage.rs:177-183 tests `metadata.is_dir()` in BOTH
branches, so `delete_file` is unreachable and a deletable path that is a
regular file is recorded as `{success: false, errorMessage: None}` without
any deletion being attempted.  The concrete evaluations below exhibit
this. -/

/-- Deletion-time filesystem containing a single regular file that is some
match's deletable path. -/
def fsWithFile : DeletionFs := [(["proj", "cache.log"], .file)]

/-- A selected match whose sole deletable path is that regular file. -/
def matchOnFile : GarbageRecognizerResult :=
  ⟨.id 0, "X", ["proj"], 5, [["proj", "cache.log"]]⟩

/-- C1 (divergence witness): executing the deletion on a match whose
deletable path is an existing regular file records
`{success: false, errorMessage: None}` and leaves the file in place — the
claimed delete-as-a-single-file branch never runs, because the source
repeats `metadata.is_dir()` in the second branch (src/garbage.rs:179). -/
theorem c1_regular_file_never_deleted :
    clean_garbage_from_vec fsWithFile [matchOnFile] =
      (.ok [⟨"X", [⟨["proj", "cache.log"], false, none⟩]⟩], fsWithFile) := by
  rfl

/-- Deletion-time filesystem for the three-match scenario: the first match's
deletable directory is present (with a file inside), the second match's
deletable path is present but is a regular file, and the third match's
deletable path has been externally removed. -/
def fsThree : DeletionFs :=
  [(["a", "target"], .dir), (["a", "target", "bin"], .file),
   (["b", "stamp"], .file)]

/-- First match: existing deletable directory. -/
def matchDirA : GarbageRecognizerResult :=
  ⟨.id 0, "Rust", ["a"], 10, [["a", "target"]]⟩

/-- Second match: existing deletable path that is a regular file. -/
def matchFileB : GarbageRecognizerResult :=
  ⟨.id 1, "X", ["b"], 5, [["b", "stamp"]]⟩

/-- Third match: deletable path externally removed before execution. -/
def matchGoneC : GarbageRecognizerResult :=
  ⟨.id 2, "Flutter", ["c"], 7, [["c", "build"]]⟩

/-- C4 (divergence witness): on a selection of 3 matches of which exactly
one deletable path was externally removed beforehand, the executor does
return `Ok` and completes the batch, but it reports TWO `success: false`
entries, not one: the externally removed path fails its metadata probe with
a stringified cause, and the present regular file also fails (with no error
message) because the delete-as-file branch is unreachable.  Only the
directory path succeeds and is actually removed. -/
theorem c4_three_match_partial_failure_eval :
    clean_garbage_from_vec fsThree [matchDirA, matchFileB, matchGoneC] =
      (.ok [⟨"Rust", [⟨["a", "target"], true, none⟩]⟩,
            ⟨"X", [⟨["b", "stamp"], false, none⟩]⟩,
            ⟨"Flutter", [⟨["c", "build"], false, some ioNotFoundMsg⟩]⟩],
       [(["b", "stamp"], .file)]) ∧
    failureCount
      (clean_garbage_from_vec fsThree [matchDirA, matchFileB, matchGoneC]).1.toOption.iget = 2 := by
  exact ⟨rfl, rfl⟩

/-! ### C3: cache read failure modes -/

/-- C3: the cache read fails with the not-found I/O error (the spec's
`CacheError::Missing`) when no entry exists for the root; fails with
`InvalidCache` (the spec's `CacheError::Expired`) when the entry's age
reaches or exceeds the ttl, in particular for every present entry when read
with ttl = 0; and any successful read proves the entry was present and
strictly within its ttl — a stale-but-present entry is never returned. -/
theorem c3_cache_read_failure_modes (c : CacheMap) (root : List Char)
    (now : Nat) :
    (∀ ttl, cacheFind c (generate_base64_from_path root) = none →
      read_garbage_result_vec_cache c root ttl now =
        .error (.ioError ioNotFoundMsg)) ∧
    (∀ ttl e, cacheFind c (generate_base64_from_path root) = some e →
      e.mtime + ttl.getD defaultTtl ≤ now →
      read_garbage_result_vec_cache c root ttl now = .error .invalidCache) ∧
    (∀ e, cacheFind c (generate_base64_from_path root) = some e →
      e.mtime ≤ now →
      read_garbage_result_vec_cache c root (some 0) now =
        .error .invalidCache) ∧
    (∀ ttl out, read_garbage_result_vec_cache c root ttl now = .ok out →
      ∃ e, cacheFind c (generate_base64_from_path root) = some e ∧
        out = e.content ∧ now < e.mtime + ttl.getD defaultTtl) := by
  refine ⟨?_, ?_, ?_, ?_⟩
  · intro ttl h
    simp [read_garbage_result_vec_cache, h]
  · intro ttl e h hle
    unfold read_garbage_result_vec_cache
    simp only [h]
    rw [if_neg (by simp only [is_cache_durable, decide_eq_true_eq]; omega)]
  · intro e h hle
    unfold read_garbage_result_vec_cache
    simp only [h]
    rw [if_neg (by simp only [is_cache_durable, Option.getD_some,
      decide_eq_true_eq]; omega)]
  · intro ttl out h
    unfold read_garbage_result_vec_cache at h
    rcases hf : cacheFind c (generate_base64_from_path root) with _ | e
    · simp only [hf] at h
      exact absurd h (by simp)
    · simp only [hf] at h
      by_cases hd : now < e.mtime + ttl.getD defaultTtl
      · have hcond : is_cache_durable (e.mtime + ttl.getD defaultTtl) now = true := by
          simp only [is_cache_durable, decide_eq_true_eq]; exact hd
        rw [if_pos hcond] at h
        exact ⟨e, rfl, by injection h with h; exact h.symm, hd⟩
      · have hcond : ¬ is_cache_durable (e.mtime + ttl.getD defaultTtl) now = true := by
          simp only [is_cache_durable, decide_eq_true_eq]; exact hd
        rw [if_neg hcond] at h
        exact absurd h (by simp)

/-- A sample root path (the fixture of the cache unit tests). -/
def rootUsers : List Char := "/Users/testuser/Projects".toList

/-- A cache directory holding one entry of mtime 100 for that root. -/
def cacheOne : CacheMap :=
  [(generate_base64_from_path rootUsers, ⟨100, [sampleRust]⟩)]

/-- Witness for C3 at concrete inputs: a read of an empty cache is the
not-found error; the mtime-100 entry read at time 500 (default ttl 300) and
at time 100 with ttl 0 is `InvalidCache`; the successful read at time 150
certifies presence and freshness of what it returned. -/
theorem c3_cache_read_witness :
    read_garbage_result_vec_cache [] rootUsers none 0 =
      .error (.ioError ioNotFoundMsg) ∧
    read_garbage_result_vec_cache cacheOne rootUsers none 500 =
      .error .invalidCache ∧
    read_garbage_result_vec_cache cacheOne rootUsers (some 0) 100 =
      .error .invalidCache ∧
    ∃ e, cacheFind cacheOne (generate_base64_from_path rootUsers) = some e ∧
      [sampleRust] = e.content ∧ 150 < e.mtime + defaultTtl := by
  refine ⟨?_, ?_, ?_, ?_⟩
  · exact (c3_cache_read_failure_modes [] rootUsers 0).1 none rfl
  · exact (c3_cache_read_failure_modes cacheOne rootUsers 500).2.1 none
      ⟨100, [sampleRust]⟩ rfl (by norm_num [defaultTtl])
  · exact (c3_cache_read_failure_modes cacheOne rootUsers 100).2.2.1
      ⟨100, [sampleRust]⟩ rfl (by norm_num)
  · simpa using (c3_cache_read_failure_modes cacheOne rootUsers 150).2.2.2 none
      [sampleRust] rfl

/-! ### C6: cache round-trip -/

/-- A cache directory already holding a fresh (mtime 0) entry for the sample
root, with contents different from what is about to be written. -/
def cacheFresh : CacheMap :=
  [(generate_base64_from_path rootUsers, ⟨0, [sampleRust]⟩)]

/-- Counterexample to C6 as stated: writing the empty result list for a root
whose cache already holds a still-durable entry is skipped by the
read-through short-circuit (src/utils.rs:52-61), so an immediate read
returns the OLD contents, not the value just written. -/
theorem c6_roundtrip_counterexample :
    read_garbage_result_vec_cache
        (write_garbage_result_vec_cache cacheFresh rootUsers [] none 0).2
        rootUsers none 0 = .ok [sampleRust] ∧
    sampleRust ∉ ([] : List GarbageRecognizerResult) := by
  exact ⟨rfl, by simp⟩

/-- Helper: storing an entry makes it the one found for its key. -/
theorem cacheFind_cacheStore_self (c : CacheMap) (k : String) (m : Nat)
    (v : List GarbageRecognizerResult) :
    cacheFind (cacheStore c k m v) k = some ⟨m, v⟩ := by
  simp [cacheFind, cacheStore]

/-- C6 amended: provided no still-durable cache entry exists for the root at
write time, `write(root, R)` succeeds, returns the deterministic location,
and an immediate `read(root)` returns exactly `R`. -/
theorem c6_roundtrip_amended (c : CacheMap) (root : List Char)
    (R : List GarbageRecognizerResult) (now : Nat)
    (h : ∀ e, cacheFind c (generate_base64_from_path root) = some e →
      ¬ is_cache_durable (e.mtime + defaultTtl) now = true) :
    (write_garbage_result_vec_cache c root R none now).1 =
      .ok (generate_base64_from_path root) ∧
    read_garbage_result_vec_cache
      (write_garbage_result_vec_cache c root R none now).2 root none now =
      .ok R := by
  unfold write_garbage_result_vec_cache
  rcases hf : cacheFind c (generate_base64_from_path root) with _ | e
  · simp only [hf]
    refine ⟨trivial, ?_⟩
    unfold read_garbage_result_vec_cache
    simp only [cacheFind_cacheStore_self]
    simp [is_cache_durable, defaultTtl]
  · simp only [hf]
    rw [if_neg (by simpa [Option.getD] using h e hf)]
    refine ⟨rfl, ?_⟩
    unfold read_garbage_result_vec_cache
    simp only [cacheFind_cacheStore_self]
    simp [is_cache_durable, defaultTtl]

/-- Witness for C6 amended at concrete inputs: on an empty cache, write then
immediate read returns exactly the written list. -/
theorem c6_roundtrip_witness :
    (write_garbage_result_vec_cache [] rootUsers [sampleFlutter] none 42).1 =
      .ok (generate_base64_from_path rootUsers) ∧
    read_garbage_result_vec_cache
      (write_garbage_result_vec_cache [] rootUsers [sampleFlutter] none 42).2
      rootUsers none 42 = .ok [sampleFlutter] :=
  c6_roundtrip_amended [] rootUsers [sampleFlutter] 42
    (fun e he => by simp [cacheFind] at he)

/-! ### C7: the path-to-cache-location hash -/

/-- A trailing separator never changes the chunk stream the hasher sees, in
any scanner state. -/
theorem chunksGo_append_sep (mode : Bool) (cur p : List Char) :
    chunksGo mode cur (p ++ [sepChar]) = chunksGo mode cur p := by
  match mode, p with
  | false, [] =>
    simp [chunksGo]
  | false, c :: rest =>
    by_cases hc : c = sepChar
    · simp only [List.cons_append, chunksGo, if_pos hc, List.append_eq]
      rw [chunksGo_append_sep true [] rest]
    · simp only [List.cons_append, chunksGo, if_neg hc, List.append_eq]
      exact chunksGo_append_sep false (c :: cur) rest
  | true, [] =>
    simp [chunksGo]
  | true, c :: rest =>
    by_cases hc : c = sepChar
    · simp only [List.cons_append, chunksGo, if_pos hc, List.append_eq]
      exact chunksGo_append_sep true [] rest
    · have hskipIff :
          (c = '.' ∧ (rest ++ [sepChar] = [] ∨ (rest ++ [sepChar]).head? = some sepChar)) ↔
          (c = '.' ∧ (rest = [] ∨ rest.head? = some sepChar)) := by
        cases rest <;> simp
      by_cases hsk : c = '.' ∧ (rest = [] ∨ rest.head? = some sepChar)
      · simp only [List.cons_append, chunksGo, if_neg hc, List.append_eq,
          if_pos (hskipIff.mpr hsk), if_pos hsk]
        exact chunksGo_append_sep true [] rest
      · simp only [List.cons_append, chunksGo, if_neg hc, List.append_eq,
          if_neg (fun h => hsk (hskipIff.mp h)), if_neg hsk]
        exact chunksGo_append_sep false [c] rest

/-- The chunk stream of a path with a trailing separator appended. -/
theorem pathChunks_append_sep (p : List Char) :
    pathChunks (p ++ [sepChar]) = pathChunks p :=
  chunksGo_append_sep false [] p

/-- C7: the cache location is a pure, deterministic function of the
normalized path (its chunk stream) only; appending a trailing separator to
any spelling never changes the location; and the concrete locations for the
unit-test roots agree with the repository's recorded values and are pairwise
distinct for distinct roots. -/
theorem c7_hash_normalized_stable :
    (∀ p q : List Char, pathChunks p = pathChunks q →
      generate_base64_from_path p = generate_base64_from_path q) ∧
    (∀ p : List Char,
      generate_base64_from_path (p ++ [sepChar]) =
        generate_base64_from_path p) ∧
    (generate_base64_from_path "/Users/testuser/Projects".toList =
        "HU+HKWhsmqU" ∧
     generate_base64_from_path "C:/Users/TestUser/Projects".toList =
        "9sOUzqnWnG0" ∧
     generate_base64_from_path "".toList = "vWCstljHnkU") := by
  refine ⟨?_, ?_, ?_, ?_, ?_⟩
  · intro p q h
    unfold generate_base64_from_path pathHashMessage
    simp only [h]
  · intro p
    unfold generate_base64_from_path pathHashMessage
    simp only [pathChunks_append_sep]
  · rfl
  · rfl
  · rfl

/-- Witness for C7 at concrete inputs: the normalization-equivalent
spellings "/a/./b" and "/a/b" share one cache location, as do "/a/b/" and
"/a/b". -/
theorem c7_hash_witness :
    generate_base64_from_path "/a/./b".toList =
      generate_base64_from_path "/a/b".toList ∧
    generate_base64_from_path "/a/b/".toList =
      generate_base64_from_path "/a/b".toList := by
  constructor
  · exact c7_hash_normalized_stable.1 "/a/./b".toList "/a/b".toList (by decide)
  · exact c7_hash_normalized_stable.2.1 "/a/b".toList

/-! ### C10: the declared marker kind never affects matching -/

/-- Two recognizer lists that agree on names and on marker VALUES, allowing
the `File` / `Directory` constructors to differ freely. -/
def recognizersKindBlindEquiv (rs rs' : List GarbageRecognizer) : Prop :=
  rs.map (·.name) = rs'.map (·.name) ∧
  rs.map (fun r => r.recognize.map FileType.value) =
    rs'.map (fun r => r.recognize.map FileType.value) ∧
  rs.map (fun r => r.delete.map FileType.value) =
    rs'.map (fun r => r.delete.map FileType.value)

/-- A marker's existence test depends only on its value. -/
theorem markerExists_value (sub : FsTree) (m m' : FileType)
    (h : m.value = m'.value) : markerExists sub m = markerExists sub m' := by
  simp [markerExists, h]

/-- `contains_recognitions` depends only on the marker values. -/
theorem anyMarker_value (sub : FsTree) (l l' : List FileType)
    (h : l.map FileType.value = l'.map FileType.value) :
    (l.any fun m => markerExists sub m) =
      (l'.any fun m => markerExists sub m) := by
  have key : ∀ ll : List FileType,
      (ll.any fun m => markerExists sub m) =
        (ll.map FileType.value).any fun v => (resolve sub v).isSome := by
    intro ll
    induction ll with
    | nil => rfl
    | cons a as ih =>
      simp only [List.any_cons, List.map_cons]
      rw [ih]
      rfl
  rw [key l, key l', h]

/-- The first existing deletable marker has the same value on both sides. -/
theorem findMarker_value (sub : FsTree) (l l' : List FileType)
    (h : l.map FileType.value = l'.map FileType.value) :
    (l.find? fun m => markerExists sub m).map FileType.value =
      (l'.find? fun m => markerExists sub m).map FileType.value := by
  have key : ∀ ll : List FileType,
      (ll.find? fun m => markerExists sub m).map FileType.value =
        (ll.map FileType.value).find? fun v => (resolve sub v).isSome := by
    intro ll
    induction ll with
    | nil => rfl
    | cons a as ih =>
      simp only [List.find?_cons, List.map_cons]
      cases hme : markerExists sub a with
      | false =>
        rw [show (resolve sub a.value).isSome = false from hme]
        exact ih
      | true =>
        rw [show (resolve sub a.value).isSome = true from hme]
        rfl
  rw [key l, key l', h]

/-- One recognizer step depends only on the recognizer's name and marker
values, never on the declared `File` / `Directory` kind. -/
theorem processRecognizer_kind_blind (p : FsPath) (sub : FsTree)
    (s : ScanState) (r r' : GarbageRecognizer) (hn : r.name = r'.name)
    (hr : r.recognize.map FileType.value = r'.recognize.map FileType.value)
    (hd : r.delete.map FileType.value = r'.delete.map FileType.value) :
    processRecognizer p sub s r = processRecognizer p sub s r' := by
  unfold processRecognizer
  have hany := anyMarker_value sub r.recognize r'.recognize hr
  have hfind := findMarker_value sub r.delete r'.delete hd
  rcases hf : r.delete.find? (fun m => markerExists sub m) with _ | m
  · rw [hf] at hfind
    rcases hf' : r'.delete.find? (fun m => markerExists sub m) with _ | m'
    · rfl
    · rw [hf'] at hfind
      exact absurd hfind.symm (by simp)
  · rw [hf] at hfind
    rcases hf' : r'.delete.find? (fun m => markerExists sub m) with _ | m'
    · rw [hf'] at hfind
      exact absurd hfind (by simp)
    · rw [hf'] at hfind
      have hv : m.value = m'.value := by
        simpa using hfind
      simp only [hany, hn, hv, deletableSizeAt]

/-- C10: the `File` / `Directory` kind declared by any recognizer marker
never affects the scan: two recognizer lists that agree on names and marker
values (the kinds flipped arbitrarily) produce identical match records on
every tree. -/
theorem c10_marker_kind_never_matters (p : FsPath) (t : FsTree)
    (rs rs' : List GarbageRecognizer)
    (h : recognizersKindBlindEquiv rs rs') :
    find_garbage_in_directory p t rs = find_garbage_in_directory p t rs' := by
  obtain ⟨hn, hr, hd⟩ := h
  have hstep : ∀ (q : FsPath) (sub : FsTree) (s : ScanState),
      rs.foldl (processRecognizer q sub) s =
        rs'.foldl (processRecognizer q sub) s := by
    intro q sub
    induction rs generalizing rs' with
    | nil =>
      cases rs' with
      | nil => intro s; rfl
      | cons _ _ => exact absurd hn (by simp)
    | cons a as ih =>
      cases rs' with
      | nil => exact absurd hn (by simp)
      | cons b bs =>
        intro s
        simp only [List.map_cons, List.cons.injEq] at hn hr hd
        simp only [List.foldl_cons]
        rw [processRecognizer_kind_blind q sub s a b hn.1 hr.1 hd.1]
        exact ih bs hn.2 hr.2 hd.2 _
  have hentry : ∀ (s : ScanState) (e : FsPath × FsTree),
      processEntry rs s e = processEntry rs' s e := by
    intro s e
    unfold processEntry
    cases e.2 with
    | file _ => rfl
    | dir cs =>
      by_cases hig : s.ignored.any (fun q => q.isPrefixOf e.1)
      · simp [hig]
      · simp only [Bool.not_eq_true] at hig
        simp [hig, hstep]
  unfold find_garbage_in_directory
  have : ∀ (es : List (FsPath × FsTree)) (s : ScanState),
      es.foldl (processEntry rs) s = es.foldl (processEntry rs') s := by
    intro es
    induction es with
    | nil => intro s; rfl
    | cons e es ih =>
      intro s
      simp only [List.foldl_cons, hentry]
      exact ih _
  rw [this]

/-- A recognizer with both marker kinds deliberately flipped relative to the
built-in Flutter recognizer. -/
def flutterFlipped : GarbageRecognizer :=
  ⟨"Flutter", [.directory ["pubspec.yaml"]], [.file ["build"]]⟩

/-- A small project tree: `proj/pubspec.yaml` is a regular FILE and
`proj/build` a directory holding 10 bytes. -/
def projTree : FsTree :=
  .dir (.cons "proj"
    (.dir (.cons "pubspec.yaml" (.file 3)
      (.cons "build" (.dir (.cons "out.bin" (.file 10) .nil)) .nil)))
    .nil)

/-- Witness for C10 at concrete inputs: the flipped-kind recognizer (which
declares `pubspec.yaml` as a directory marker although it is a regular file,
and `build` as a file marker although it is a directory) produces exactly
the same match records as the built-in one. -/
theorem c10_marker_kind_witness :
    find_garbage_in_directory ["r"] projTree [flutterFlipped] =
      find_garbage_in_directory ["r"] projTree
        [⟨"Flutter", [.file ["pubspec.yaml"]], [.directory ["build"]]⟩] :=
  c10_marker_kind_never_matters ["r"] projTree _ _ ⟨rfl, rfl, rfl⟩

/-! ### The shape of every emitted match (origin lemma)

Every result produced by the scan fold comes from one visited entry and one
recognizer: its deletable list is the single path obtained by joining the
FIRST existing deletable marker onto the visited directory, its size is the
`dir_size` of that marker's subtree (0 on failure), and both the presence
flag and the deletable flag were true. -/

/-- The provenance of one match record. -/
def ResultOrigin (recs : List GarbageRecognizer)
    (es : List (FsPath × FsTree)) (r : GarbageRecognizerResult) : Prop :=
  ∃ e ∈ es, ∃ ρ ∈ recs, ∃ m,
    ρ.delete.find? (fun mm => markerExists e.2 mm) = some m ∧
    (ρ.recognize.any fun mm => markerExists e.2 mm) = true ∧
    r.recognizer_name = ρ.name ∧ r.directory = e.1 ∧
    r.size = deletableSizeAt e.2 m ∧ r.deletable = [e.1 ++ m.value]

/-- One recognizer step either leaves the result list unchanged or appends
exactly one match of the canonical shape. -/
theorem processRecognizer_results_cases (p : FsPath) (sub : FsTree)
    (s : ScanState) (ρ : GarbageRecognizer) :
    (processRecognizer p sub s ρ).results = s.results ∨
    ∃ m, ρ.delete.find? (fun mm => markerExists sub mm) = some m ∧
      (ρ.recognize.any fun mm => markerExists sub mm) = true ∧
      (processRecognizer p sub s ρ).results = s.results ++
        [⟨.id s.counter, ρ.name, p, deletableSizeAt sub m, [p ++ m.value]⟩] := by
  unfold processRecognizer
  rcases hf : ρ.delete.find? (fun mm => markerExists sub mm) with _ | m
  · left
    rfl
  · by_cases hp : (ρ.recognize.any fun mm => markerExists sub mm) = true
    · right
      refine ⟨m, rfl, hp, ?_⟩
      simp only [hp]
      rfl
    · left
      simp only [Bool.not_eq_true] at hp
      simp only [hp]
      rfl

/-- The state other than `results` aside, one recognizer step never removes
previously collected results. -/
theorem processRecognizer_results_mono (p : FsPath) (sub : FsTree)
    (s : ScanState) (ρ : GarbageRecognizer) (r : GarbageRecognizerResult)
    (h : r ∈ s.results) : r ∈ (processRecognizer p sub s ρ).results := by
  rcases processRecognizer_results_cases p sub s ρ with heq | ⟨m, _, _, heq⟩
  · rw [heq]; exact h
  · rw [heq]; exact List.mem_append_left _ h

/-- Origin of every result collected by the recognizer loop at one visited
directory. -/
theorem foldRecognizers_origin (p : FsPath) (sub : FsTree) :
    ∀ (ρs : List GarbageRecognizer) (s : ScanState),
      ∀ r ∈ (ρs.foldl (processRecognizer p sub) s).results,
        r ∈ s.results ∨
        ∃ ρ ∈ ρs, ∃ m,
          ρ.delete.find? (fun mm => markerExists sub mm) = some m ∧
          (ρ.recognize.any fun mm => markerExists sub mm) = true ∧
          r.recognizer_name = ρ.name ∧ r.directory = p ∧
          r.size = deletableSizeAt sub m ∧ r.deletable = [p ++ m.value] := by
  intro ρs
  induction ρs with
  | nil =>
    intro s r hr
    exact Or.inl hr
  | cons a as ih =>
    intro s r hr
    simp only [List.foldl_cons] at hr
    rcases ih (processRecognizer p sub s a) r hr with hmem | ⟨ρ, hρ, rest⟩
    · rcases processRecognizer_results_cases p sub s a with heq | ⟨m, hf, hp, heq⟩
      · rw [heq] at hmem
        exact Or.inl hmem
      · rw [heq] at hmem
        rcases List.mem_append.mp hmem with h1 | h2
        · exact Or.inl h1
        · have hr2 := List.mem_singleton.mp h2
          subst hr2
          exact Or.inr ⟨a, List.mem_cons_self a as, m, hf, hp, rfl, rfl, rfl, rfl⟩
    · exact Or.inr ⟨ρ, List.mem_cons_of_mem a hρ, rest⟩

/-- Origin of every result collected while processing one walk entry. -/
theorem processEntry_origin (recs : List GarbageRecognizer) (s : ScanState)
    (e : FsPath × FsTree) :
    ∀ r ∈ (processEntry recs s e).results,
      r ∈ s.results ∨
      ∃ ρ ∈ recs, ∃ m,
        ρ.delete.find? (fun mm => markerExists e.2 mm) = some m ∧
        (ρ.recognize.any fun mm => markerExists e.2 mm) = true ∧
        r.recognizer_name = ρ.name ∧ r.directory = e.1 ∧
        r.size = deletableSizeAt e.2 m ∧ r.deletable = [e.1 ++ m.value] := by
  intro r hr
  obtain ⟨ep, et⟩ := e
  unfold processEntry at hr
  cases et with
  | file len => exact Or.inl hr
  | dir cs =>
    by_cases hig : s.ignored.any (fun q => q.isPrefixOf ep)
    · simp only [hig, if_pos] at hr
      exact Or.inl hr
    · simp only [Bool.not_eq_true] at hig
      simp only [hig] at hr
      simp only [Bool.false_eq_true, if_false] at hr
      exact foldRecognizers_origin ep (.dir cs) recs s r hr

/-- Origin of every result of the whole walk fold. -/
theorem foldEntries_origin (recs : List GarbageRecognizer) :
    ∀ (es : List (FsPath × FsTree)) (s : ScanState),
      ∀ r ∈ (es.foldl (processEntry recs) s).results,
        r ∈ s.results ∨ ResultOrigin recs es r := by
  intro es
  induction es with
  | nil =>
    intro s r hr
    exact Or.inl hr
  | cons e es ih =>
    intro s r hr
    simp only [List.foldl_cons] at hr
    rcases ih (processEntry recs s e) r hr with hmem | ⟨e', he', rest⟩
    · rcases processEntry_origin recs s e r hmem with h1 | ⟨ρ, hρ, m, hs⟩
      · exact Or.inl h1
      · exact Or.inr ⟨e, List.mem_cons_self e es, ρ, hρ, m, hs⟩
    · exact Or.inr ⟨e', List.mem_cons_of_mem e he', rest⟩

/-- Every match of a scan has a canonical origin. -/
theorem find_garbage_origin (p : FsPath) (t : FsTree)
    (recs : List GarbageRecognizer) :
    ∀ r ∈ find_garbage_in_directory p t recs,
      ResultOrigin recs (walk p t) r := by
  intro r hr
  rcases foldEntries_origin recs (walk p t) ⟨[], [], 0⟩ r hr with h | h
  · exact absurd h (List.not_mem_nil r)
  · exact h

/-! ### C8: first existing deletable marker wins -/

/-- C8: (i) one recognizer step emits a match exactly when a presence marker
exists and some deletable marker resolves to an existing path; (ii) when the
deletable markers split as `l1 ++ m :: l2` with every marker of `l1`
non-existing and `m` existing (i.e. `m` is the FIRST existing deletable
marker), the emitted match carries the single deletable path `p ++ m.value`
— not a union of all existing markers; (iii) every match of every scan has
this shape: presence held, the first existing deletable marker `m` of its
recognizer was selected, and the deletable list is exactly the one joined
path. -/
theorem c8_first_existing_marker_determines_match :
    (∀ (p : FsPath) (sub : FsTree) (s : ScanState) (ρ : GarbageRecognizer),
      (∃ added, (processRecognizer p sub s ρ).results = s.results ++ [added]) ↔
        ((ρ.recognize.any fun mm => markerExists sub mm) = true ∧
         (ρ.delete.any fun mm => markerExists sub mm) = true)) ∧
    (∀ (p : FsPath) (sub : FsTree) (s : ScanState) (ρ : GarbageRecognizer)
      (m : FileType) (l1 l2 : List FileType),
      ρ.delete = l1 ++ m :: l2 →
      (∀ m' ∈ l1, markerExists sub m' = false) →
      markerExists sub m = true →
      (ρ.recognize.any fun mm => markerExists sub mm) = true →
      (processRecognizer p sub s ρ).results = s.results ++
        [⟨.id s.counter, ρ.name, p, deletableSizeAt sub m, [p ++ m.value]⟩]) ∧
    (∀ (p : FsPath) (t : FsTree) (recs : List GarbageRecognizer),
      ∀ r ∈ find_garbage_in_directory p t recs,
        ResultOrigin recs (walk p t) r) := by
  refine ⟨?_, ?_, ?_⟩
  · intro p sub s ρ
    constructor
    · rintro ⟨added, hadd⟩
      rcases processRecognizer_results_cases p sub s ρ with heq | ⟨m, hf, hp, heq⟩
      · rw [heq] at hadd
        exact absurd (congrArg List.length hadd) (by simp)
      · refine ⟨hp, ?_⟩
        rw [List.any_eq_true]
        have hmem := List.mem_of_find?_eq_some hf
        have hpm := List.find?_some hf
        exact ⟨m, hmem, hpm⟩
    · rintro ⟨hp, hd⟩
      rw [List.any_eq_true] at hd
      obtain ⟨m, hmem, hpm⟩ := hd
      have : (ρ.delete.find? (fun mm => markerExists sub mm)).isSome := by
        rw [List.find?_isSome]
        exact ⟨m, hmem, hpm⟩
      rcases hf : ρ.delete.find? (fun mm => markerExists sub mm) with _ | m0
      · rw [hf] at this
        simp at this
      · rcases processRecognizer_results_cases p sub s ρ with heq | ⟨m1, _, _, heq⟩
        · unfold processRecognizer at heq
          simp only [hf, hp] at heq
          exact absurd (congrArg List.length heq) (by simp)
        · exact ⟨_, heq⟩
  · intro p sub s ρ m l1 l2 hsplit hnone hm hp
    have hf : ρ.delete.find? (fun mm => markerExists sub mm) = some m := by
      rw [List.find?_eq_some]
      exact ⟨hm, l1, l2, hsplit, fun a ha => by simp [hnone a ha]⟩
    unfold processRecognizer
    simp only [hf, hp]
    rfl
  · exact find_garbage_origin

/-- A recognizer whose deletable markers are, in declared order: a
non-existing one, then two that both exist. -/
def firstWinsRec : GarbageRecognizer :=
  ⟨"R", [.file ["Cargo.toml"]],
   [.directory ["missing"], .directory ["target"], .directory ["extra"]]⟩

/-- A project directory holding `Cargo.toml`, a 5-byte `target` directory
and an empty `extra` directory. -/
def rustTree : FsTree :=
  .dir (.cons "Cargo.toml" (.file 2)
    (.cons "target" (.dir (.cons "bin" (.file 5) .nil))
      (.cons "extra" (.dir .nil) .nil)))

/-- Witness for C8 at concrete inputs: although both `target` and `extra`
exist, the first existing deletable marker (`target`) alone determines the
match's single deletable path. -/
theorem c8_first_marker_witness :
    (processRecognizer ["r"] rustTree ⟨[], [], 0⟩ firstWinsRec).results =
      [] ++ [⟨.id 0, "R", ["r"],
        deletableSizeAt rustTree (.directory ["target"]),
        [["r", "target"]]⟩] :=
  c8_first_existing_marker_determines_match.2.1 ["r"] rustTree ⟨[], [], 0⟩
    firstWinsRec (.directory ["target"]) [.directory ["missing"]]
    [.directory ["extra"]] rfl (by decide) (by decide) (by decide)

/-! ### Walk, resolve and byte-count bridging lemmas -/

/-- A successful name lookup means the forest has that name. -/
theorem lookupName_hasName : ∀ (cs : FsForest) (n : String) (c : FsTree),
    cs.lookupName n = some c → cs.hasName n = true
  | .nil, n, c, h => absurd h (by simp [FsForest.lookupName])
  | .cons n' t' rest, n, c, h => by
    unfold FsForest.lookupName at h
    unfold FsForest.hasName
    by_cases he : n' == n
    · simp [he]
    · simp only [he, if_false] at h
      simp only [he, Bool.false_or]
      exact lookupName_hasName rest n c h

/-- Resolving a concatenated relative path resolves in two stages. -/
theorem resolve_append (a b : FsPath) :
    ∀ t : FsTree, resolve t (a ++ b) =
      match resolve t a with
      | none => none
      | some c => resolve c b := by
  induction a with
  | nil =>
    intro t
    simp [resolve]
  | cons n rest ih =>
    intro t
    cases t with
    | file len => rfl
    | dir cs =>
      simp only [List.cons_append, resolve]
      cases cs.lookupName n with
      | none => rfl
      | some c => exact ih c

mutual

/-- The recursive `dir_size` of a directory computes exactly the total file
bytes of its subtree. -/
theorem dir_size_eq_bytes (cs : FsForest) :
    dir_size (.dir cs) = some (FsForest.bytes cs) := by
  unfold dir_size
  exact dirSizeEntries_eq_bytes cs

theorem dirSizeEntries_eq_bytes (cs : FsForest) :
    dirSizeEntries cs = some (FsForest.bytes cs) := by
  cases cs with
  | nil => rfl
  | cons n t rest =>
    cases t with
    | file len =>
      unfold dirSizeEntries
      rw [dirSizeEntries_eq_bytes rest]
      simp [FsForest.bytes, FsTree.bytes, Nat.add_comm]
    | dir cs' =>
      unfold dirSizeEntries
      rw [dirSizeEntries_eq_bytes cs', dirSizeEntries_eq_bytes rest]
      simp [FsForest.bytes, FsTree.bytes, Nat.add_comm]

end

mutual

/-- Every walk entry's path extends the walk's base path. -/
theorem walk_entry_extends (p : FsPath) (t : FsTree) :
    ∀ e ∈ walk p t, p <+: e.1 := by
  cases t with
  | file len =>
    intro e he
    simp only [walk, List.mem_singleton] at he
    subst he
    exact List.prefix_rfl
  | dir cs =>
    intro e he
    simp only [walk, List.mem_cons] at he
    rcases he with he | he
    · subst he
      exact List.prefix_rfl
    · obtain ⟨n, _, hpre⟩ := walkForest_entry_extends p cs e he
      exact ((p.prefix_append [n]).trans hpre)

/-- Every forest walk entry's path extends the base path by one of the
forest's child names. -/
theorem walkForest_entry_extends (p : FsPath) (cs : FsForest) :
    ∀ e ∈ walkForest p cs,
      ∃ n, cs.hasName n = true ∧ (p ++ [n]) <+: e.1 := by
  cases cs with
  | nil =>
    intro e he
    exact absurd he (by simp [walkForest])
  | cons n t rest =>
    intro e he
    simp only [walkForest, List.mem_append] at he
    rcases he with he | he
    · exact ⟨n, by simp [FsForest.hasName], walk_entry_extends (p ++ [n]) t e he⟩
    · obtain ⟨n', hn', hpre⟩ := walkForest_entry_extends p rest e he
      refine ⟨n', ?_, hpre⟩
      unfold FsForest.hasName
      rw [hn']
      simp

end

mutual

/-- Under well-formedness, every walk entry resolves (from the walk's base)
to exactly the subtree the walk carries. -/
theorem walk_resolve (p : FsPath) (t : FsTree) (hwf : t.wfb = true) :
    ∀ e ∈ walk p t, ∃ rel, e.1 = p ++ rel ∧ resolve t rel = some e.2 := by
  cases t with
  | file len =>
    intro e he
    simp only [walk, List.mem_singleton] at he
    subst he
    exact ⟨[], by simp, rfl⟩
  | dir cs =>
    intro e he
    simp only [walk, List.mem_cons] at he
    rcases he with he | he
    · subst he
      exact ⟨[], by simp, rfl⟩
    · obtain ⟨n, rel', c, hlk, hpath, hres⟩ :=
        walkForest_resolve p cs (by exact hwf) e he
      refine ⟨n :: rel', hpath, ?_⟩
      simp only [resolve, hlk]
      exact hres

theorem walkForest_resolve (p : FsPath) (cs : FsForest)
    (hwf : cs.wfb = true) :
    ∀ e ∈ walkForest p cs,
      ∃ n rel' c, cs.lookupName n = some c ∧
        e.1 = p ++ (n :: rel') ∧ resolve c rel' = some e.2 := by
  cases cs with
  | nil =>
    intro e he
    exact absurd he (by simp [walkForest])
  | cons n t rest =>
    intro e he
    unfold FsForest.wfb at hwf
    simp only [Bool.and_eq_true, Bool.not_eq_true'] at hwf
    obtain ⟨⟨hnodup, hwt⟩, hwr⟩ := hwf
    simp only [walkForest, List.mem_append] at he
    rcases he with he | he
    · obtain ⟨rel, hpath, hres⟩ := walk_resolve (p ++ [n]) t hwt e he
      refine ⟨n, rel, t, ?_, by simpa using hpath, hres⟩
      simp [FsForest.lookupName]
    · obtain ⟨n', rel', c, hlk, hpath, hres⟩ := walkForest_resolve p rest hwr e he
      refine ⟨n', rel', c, ?_, hpath, hres⟩
      have hne : ¬ n == n' := by
        intro hb
        have hhas := lookupName_hasName rest n' c hlk
        rw [show n = n' from eq_of_beq hb] at hnodup
        rw [hhas] at hnodup
        cases hnodup
      unfold FsForest.lookupName
      rw [if_neg hne]
      exact hlk

end

/-- `resolve` at the empty relative path returns the tree itself. -/
theorem resolve_nil (t : FsTree) : resolve t [] = some t := by
  cases t <;> rfl

/-- An entry whose path is not under `q` weighs nothing. -/
theorem entryWeight_eq_zero (q : FsPath) (e : FsPath × FsTree)
    (h : ¬ q <+: e.1) : entryWeight q e = 0 := by
  obtain ⟨ep, et⟩ := e
  simp only [] at h
  cases et with
  | dir _ => rfl
  | file n =>
    simp only [entryWeight, List.isPrefixOf_iff_prefix]
    rw [if_neg h]

/-- Two one-step extensions of the same path by different names cannot both
sit above one path. -/
theorem diverging_extension (p x : FsPath) (n n' : String) (rel' : FsPath)
    (h1 : (p ++ [n']) <+: x) (h2 : (p ++ n :: rel') <+: x) : n = n' := by
  obtain ⟨t1, ht1⟩ := h1
  obtain ⟨t2, ht2⟩ := h2
  rw [← ht2] at ht1
  simp only [List.append_assoc, List.singleton_append, List.cons_append] at ht1
  have := List.append_cancel_left ht1
  injection this with h _
  exact h.symm

mutual

/-- When the whole walk sits at or under `q`, the weighted sum is the entire
subtree's byte count. -/
theorem walk_weight_total (q p : FsPath) (t : FsTree) (hq : q <+: p) :
    ((walk p t).map (entryWeight q)).sum = t.bytes := by
  cases t with
  | file len =>
    simp [walk, entryWeight, List.isPrefixOf_iff_prefix, hq, FsTree.bytes]
  | dir cs =>
    simp only [walk, List.map_cons, List.sum_cons]
    rw [walkForest_weight_total q p cs hq]
    simp [entryWeight, FsTree.bytes]

theorem walkForest_weight_total (q p : FsPath) (cs : FsForest)
    (hq : q <+: p) :
    ((walkForest p cs).map (entryWeight q)).sum = cs.bytes := by
  cases cs with
  | nil => rfl
  | cons n t rest =>
    simp only [walkForest, List.map_append, List.sum_append]
    rw [walk_weight_total q (p ++ [n]) t (hq.trans (p.prefix_append [n])),
      walkForest_weight_total q p rest hq]
    rfl

end

/-- A subtree walked from a one-step extension that diverges from `q`'s next
component contributes nothing. -/
theorem walk_weight_zero_of_diverge (p : FsPath) (n n' : String)
    (rel' : FsPath) (t : FsTree) (hne : n ≠ n') :
    ((walk (p ++ [n']) t).map (entryWeight (p ++ n :: rel'))).sum = 0 := by
  apply List.sum_eq_zero
  intro x hx
  rw [List.mem_map] at hx
  obtain ⟨e, he, hw⟩ := hx
  rw [← hw]
  apply entryWeight_eq_zero
  intro hcon
  exact hne (diverging_extension p e.1 n n' rel'
    (walk_entry_extends (p ++ [n']) t e he) hcon)

set_option maxHeartbeats 1000000 in
mutual

/-- The weighted sum under a resolvable target equals the byte count of the
resolved subtree (well-formedness makes the resolved child the walked
child). -/
theorem walk_weight_resolve (t : FsTree) (p rel : FsPath) (sub : FsTree)
    (hwf : t.wfb = true) (hres : resolve t rel = some sub) :
    ((walk p t).map (entryWeight (p ++ rel))).sum = sub.bytes := by
  cases rel with
  | nil =>
    rw [resolve_nil, Option.some.injEq] at hres
    subst hres
    rw [List.append_nil]
    exact walk_weight_total p p t List.prefix_rfl
  | cons n rel' =>
    cases t with
    | file len => exact absurd hres (by simp [resolve])
    | dir cs =>
      simp only [resolve] at hres
      rcases hlk : cs.lookupName n with _ | c
      · rw [hlk] at hres
        exact absurd hres (by simp)
      · rw [hlk] at hres
        simp only [walk, List.map_cons, List.sum_cons]
        have hwf' : cs.wfb = true := by
          unfold FsTree.wfb at hwf
          exact hwf
        rw [walkForest_weight_resolve cs p n rel' sub c hwf' hlk hres]
        simp [entryWeight]

theorem walkForest_weight_resolve (cs : FsForest) (p : FsPath) (n : String)
    (rel' : FsPath) (sub : FsTree) (c : FsTree) (hwf : cs.wfb = true)
    (hlk : cs.lookupName n = some c) (hres : resolve c rel' = some sub) :
    ((walkForest p cs).map (entryWeight (p ++ n :: rel'))).sum = sub.bytes := by
  cases cs with
  | nil => exact absurd hlk (by simp [FsForest.lookupName])
  | cons n' t rest =>
    unfold FsForest.wfb at hwf
    simp only [Bool.and_eq_true, Bool.not_eq_true'] at hwf
    obtain ⟨⟨hnodup, hwt⟩, hwr⟩ := hwf
    simp only [walkForest, List.map_append, List.sum_append]
    unfold FsForest.lookupName at hlk
    by_cases hb : n' == n
    · have hn : n' = n := eq_of_beq hb
      rw [if_pos hb, Option.some.injEq] at hlk
      rw [hn] at hnodup
      rw [hn, hlk]
      rw [hlk] at hwt
      rw [show p ++ n :: rel' = (p ++ [n]) ++ rel' by simp]
      rw [walk_weight_resolve c (p ++ [n]) rel' sub hwt hres]
      have hzero :
          ((walkForest p rest).map (entryWeight ((p ++ [n]) ++ rel'))).sum = 0 := by
        apply List.sum_eq_zero
        intro x hx
        rw [List.mem_map] at hx
        obtain ⟨e, he, hw⟩ := hx
        rw [← hw]
        apply entryWeight_eq_zero
        intro hcon
        obtain ⟨n2, hn2has, hn2pre⟩ := walkForest_entry_extends p rest e he
        rw [show (p ++ [n]) ++ rel' = p ++ n :: rel' by simp] at hcon
        have heq2 : n = n2 := diverging_extension p e.1 n n2 rel' hn2pre hcon
        rw [← heq2] at hn2has
        rw [hn2has] at hnodup
        cases hnodup
      rw [hzero]
      rfl
    · rw [if_neg hb] at hlk
      have hne : n ≠ n' := fun h => hb (by simp [h])
      rw [walk_weight_zero_of_diverge p n n' rel' t hne,
        walkForest_weight_resolve rest p n rel' sub c hwr hlk hres]
      exact Nat.zero_add _

end

/-! ### C5: match sizes versus true on-disk bytes -/

/-- A recognizer whose deletable marker names a regular FILE. -/
def fileMarkerRec : GarbageRecognizer :=
  ⟨"Logs", [.file ["app.toml"]], [.file ["cache.log"]]⟩

/-- A directory holding the presence marker and a 5-byte regular file that
is the deletable target. -/
def logTree : FsTree :=
  .dir (.cons "app.toml" (.file 1) (.cons "cache.log" (.file 5) .nil))

/-- Counterexample to C5 as stated: when the deletable marker resolves to a
regular file, `dir_size` fails (`read_dir` on a file) and
`unwrap_or_default()` records size 0, while the true byte total under the
reported deletable path is 5; the per-match equality and the list total both
fail. -/
theorem c5_size_counterexample :
    find_garbage_in_directory ["r"] logTree [fileMarkerRec] =
      [⟨.id 0, "Logs", ["r"], 0, [["r", "cache.log"]]⟩] ∧
    bytesUnder ["r"] logTree ["r", "cache.log"] = 5 ∧
    logTree.wfb = true := by
  exact ⟨rfl, rfl, rfl⟩

/-- Summing per-match sizes that each equal their own deletable-path totals
yields the flattened per-path total. -/
theorem sum_sizes_eq_flat (f : FsPath → Nat) :
    ∀ (l : List GarbageRecognizerResult),
      (∀ r ∈ l, r.size = (r.deletable.map f).sum) →
      (l.map (·.size)).sum = ((l.flatMap (·.deletable)).map f).sum := by
  intro l
  induction l with
  | nil => intro _; rfl
  | cons a as ih =>
    intro h
    simp only [List.map_cons, List.sum_cons, List.flatMap_cons,
      List.map_append, List.sum_append]
    rw [h a (List.mem_cons_self a as), ih (fun r hr => h r (List.mem_cons_of_mem a hr))]

/-- C5 amended: on every well-formed tree, every match whose reported
deletable paths all resolve to directories has `size` equal to the true
on-disk byte total under exactly those paths; and under that proviso for
the whole list, the sizes sum to the per-path flattened total (equal to the
union total whenever the deletable subtrees do not overlap). -/
theorem c5_sizes_amended (root : FsPath) (t : FsTree)
    (recs : List GarbageRecognizer) (hwf : t.wfb = true) :
    (∀ r ∈ find_garbage_in_directory root t recs,
      (∀ q ∈ r.deletable, isDirAt root t q = true) →
      r.size = (r.deletable.map fun q => bytesUnder root t q).sum) ∧
    ((∀ r ∈ find_garbage_in_directory root t recs,
        ∀ q ∈ r.deletable, isDirAt root t q = true) →
      compute_deletable_size_from_garbage_results
          (find_garbage_in_directory root t recs) =
        (((find_garbage_in_directory root t recs).flatMap
            (·.deletable)).map fun q => bytesUnder root t q).sum) := by
  have main : ∀ r ∈ find_garbage_in_directory root t recs,
      (∀ q ∈ r.deletable, isDirAt root t q = true) →
      r.size = (r.deletable.map fun q => bytesUnder root t q).sum := by
    intro r hr hdirs
    obtain ⟨e, he, ρ, hρ, m, hf, hp, hname, hdir, hsize, hdel⟩ :=
      find_garbage_origin root t recs r hr
    obtain ⟨rel, hpath, hres⟩ := walk_resolve root t hwf e he
    have hq := hdirs (e.1 ++ m.value) (by rw [hdel]; exact List.mem_singleton_self _)
    have habs : resolveAbs root t (e.1 ++ m.value) =
        resolve e.2 m.value := by
      unfold resolveAbs
      rw [hpath, List.append_assoc]
      rw [if_pos (by rw [List.isPrefixOf_iff_prefix]; exact root.prefix_append _)]
      rw [List.drop_left]
      rw [resolve_append rel m.value t, hres]
    rcases hmv : resolve e.2 m.value with _ | sub
    · rw [hmv] at habs
      unfold isDirAt at hq
      rw [habs] at hq
      simp at hq
    · cases sub with
      | file len =>
        rw [hmv] at habs
        unfold isDirAt at hq
        rw [habs] at hq
        simp at hq
      | dir cs0 =>
        have hres2 : resolve t (rel ++ m.value) = some (.dir cs0) := by
          rw [resolve_append rel m.value t, hres]
          exact hmv
        have hbytes : bytesUnder root t (e.1 ++ m.value) = cs0.bytes := by
          unfold bytesUnder
          rw [hpath, List.append_assoc]
          exact walk_weight_resolve t root (rel ++ m.value) (.dir cs0) hwf hres2
        have hsz : r.size = cs0.bytes := by
          rw [hsize]
          unfold deletableSizeAt
          rw [hmv]
          show (dir_size (.dir cs0)).getD 0 = cs0.bytes
          rw [dir_size_eq_bytes cs0]
          rfl
        rw [hdel, hsz]
        simp only [List.map_cons, List.map_nil, List.sum_cons, List.sum_nil]
        rw [hbytes]
        omega
  refine ⟨main, ?_⟩
  intro hall
  unfold compute_deletable_size_from_garbage_results
  exact sum_sizes_eq_flat _ _ (fun r hr => main r hr (hall r hr))

/-- Witness for C5 amended at concrete inputs: the Flutter scan of
`proj/pubspec.yaml` + `proj/build` (10 bytes) reports one match whose size
10 equals the byte total under its single deletable directory, and the list
total matches the flattened per-path total. -/
theorem c5_sizes_witness :
    compute_deletable_size_from_garbage_results
        (find_garbage_in_directory ["r"] projTree
          [⟨"Flutter", [.file ["pubspec.yaml"]], [.directory ["build"]]⟩]) =
      (((find_garbage_in_directory ["r"] projTree
          [⟨"Flutter", [.file ["pubspec.yaml"]], [.directory ["build"]]⟩]).flatMap
          (·.deletable)).map fun q => bytesUnder ["r"] projTree q).sum :=
  (c5_sizes_amended ["r"] projTree
    [⟨"Flutter", [.file ["pubspec.yaml"]], [.directory ["build"]]⟩]
    (by decide)).2 (by decide)

/-! ### C2: the pruning invariant -/

/-- Two recognizers sharing the deletable marker `build`. -/
def dupRecA : GarbageRecognizer := ⟨"A", [.file ["m"]], [.directory ["build"]]⟩

/-- The second recognizer with the same deletable marker. -/
def dupRecB : GarbageRecognizer := ⟨"B", [.file ["m"]], [.directory ["build"]]⟩

/-- A well-formed tree both recognizers match at its root. -/
def dupTree : FsTree :=
  .dir (.cons "m" (.file 0)
    (.cons "build" (.dir (.cons "x" (.file 7) .nil)) .nil))

/-- Counterexample to C2 as stated: the prune set is only consulted before
processing a VISITED directory (src/garbage.rs:94-99), never inside the
recognizer loop, so two recognizers evaluated at the same directory can both
claim the same deletable subtree: the scan below emits two matches whose
deletable paths are identical, violating the overlap-freedom invariant on a
well-formed tree. -/
theorem c2_overlap_counterexample :
    find_garbage_in_directory ["r"] dupTree [dupRecA, dupRecB] =
      [⟨.id 0, "A", ["r"], 7, [["r", "build"]]⟩,
       ⟨.id 1, "B", ["r"], 7, [["r", "build"]]⟩] ∧
    ¬ deletableOverlapFree
      (find_garbage_in_directory ["r"] dupTree [dupRecA, dupRecB]) ∧
    dupTree.wfb = true := by
  refine ⟨rfl, ?_, rfl⟩
  unfold deletableOverlapFree
  decide

/-- A proper prefix of a list extended by one element is a prefix of the
list, unless it is the whole extension. -/
theorem prefix_snoc {α : Type} : ∀ (l1 l2 : List α) (x : α),
    l1 <+: l2 ++ [x] → l1 <+: l2 ∨ l1 = l2 ++ [x] := by
  intro l1
  induction l1 with
  | nil => intro l2 x _; exact Or.inl List.nil_prefix
  | cons a l1' ih =>
    intro l2 x h
    cases l2 with
    | nil =>
      simp only [List.nil_append] at h ⊢
      rcases (List.cons_prefix_cons).mp h with ⟨ha, htail⟩
      have : l1' = [] := List.eq_nil_of_prefix_nil htail
      subst this ha
      exact Or.inr rfl
    | cons b l2' =>
      simp only [List.cons_append] at h ⊢
      rcases (List.cons_prefix_cons).mp h with ⟨ha, htail⟩
      subst ha
      rcases ih l2' x htail with h1 | h1
      · exact Or.inl ((List.cons_prefix_cons).mpr ⟨rfl, h1⟩)
      · subst h1
        exact Or.inr rfl

/-- Appending single elements is injective on both parts. -/
theorem snoc_inj {α : Type} (d p : List α) (n n' : α)
    (h : d ++ [n] = p ++ [n']) : d = p ∧ n = n' := by
  have hlen : d.length = p.length := by
    have := congrArg List.length h
    simp at this
    exact this
  have := List.append_inj h hlen
  refine ⟨this.1, ?_⟩
  have h2 := this.2
  injection h2

mutual

/-- Pre-order property of the walk on well-formed trees: a later entry's
path is never a prefix (equal or above) of an earlier entry's path. -/
theorem walk_pairwise (p : FsPath) (t : FsTree) (hwf : t.wfb = true) :
    (walk p t).Pairwise fun e1 e2 => ¬ e2.1 <+: e1.1 := by
  cases t with
  | file len =>
    simp [walk]
  | dir cs =>
    rw [show walk p (.dir cs) = (p, FsTree.dir cs) :: walkForest p cs from rfl]
    rw [List.pairwise_cons]
    constructor
    · intro e he hcon
      obtain ⟨n, _, hpre⟩ := walkForest_entry_extends p cs e he
      have h1 : p.length + 1 ≤ e.1.length := by
        have := hpre.length_le
        simp at this
        omega
      have h2 := hcon.length_le
      simp at h2
      omega
    · exact walkForest_pairwise p cs (by exact hwf)

theorem walkForest_pairwise (p : FsPath) (cs : FsForest)
    (hwf : cs.wfb = true) :
    (walkForest p cs).Pairwise fun e1 e2 => ¬ e2.1 <+: e1.1 := by
  cases cs with
  | nil => simp [walkForest]
  | cons n t rest =>
    unfold FsForest.wfb at hwf
    simp only [Bool.and_eq_true, Bool.not_eq_true'] at hwf
    obtain ⟨⟨hnodup, hwt⟩, hwr⟩ := hwf
    rw [show walkForest p (.cons n t rest) =
      walk (p ++ [n]) t ++ walkForest p rest from rfl]
    rw [List.pairwise_append]
    refine ⟨walk_pairwise (p ++ [n]) t hwt, walkForest_pairwise p rest hwr, ?_⟩
    intro e1 he1 e2 he2 hcon
    obtain ⟨n2, hn2has, hn2pre⟩ := walkForest_entry_extends p rest e2 he2
    have h1pre : (p ++ [n]) <+: e1.1 := walk_entry_extends (p ++ [n]) t e1 he1
    have h2pre : (p ++ [n2]) <+: e1.1 := hn2pre.trans hcon
    have : n2 = n := diverging_extension p e1.1 n2 n [] h1pre (by simpa using h2pre)
    rw [this] at hn2has
    rw [hn2has] at hnodup
    cases hnodup

end

/-- When no deletable marker exists, the recognizer step is the identity. -/
theorem processRecognizer_eq_of_find_none (p : FsPath) (sub : FsTree)
    (s : ScanState) (ρ : GarbageRecognizer)
    (hf : ρ.delete.find? (fun mm => markerExists sub mm) = none) :
    processRecognizer p sub s ρ = s := by
  unfold processRecognizer
  simp only [hf]

/-- When a deletable marker exists, the step inserts the joined path into
the ignored set whether or not presence holds. -/
theorem processRecognizer_ignored_of_find_some (p : FsPath) (sub : FsTree)
    (s : ScanState) (ρ : GarbageRecognizer) (m : FileType)
    (hf : ρ.delete.find? (fun mm => markerExists sub mm) = some m) :
    (processRecognizer p sub s ρ).ignored =
      insertIgnored (p ++ m.value) s.ignored := by
  unfold processRecognizer
  simp only [hf]
  by_cases hp : (ρ.recognize.any fun mm => markerExists sub mm) = true
  · simp only [hp]
    rfl
  · simp only [Bool.not_eq_true] at hp
    simp only [hp]
    rfl

/-- When a deletable marker exists, the step's results are either unchanged
(no presence) or extended by the one canonical match. -/
theorem processRecognizer_results_of_find_some (p : FsPath) (sub : FsTree)
    (s : ScanState) (ρ : GarbageRecognizer) (m : FileType)
    (hf : ρ.delete.find? (fun mm => markerExists sub mm) = some m) :
    (processRecognizer p sub s ρ).results = s.results ∨
    (processRecognizer p sub s ρ).results = s.results ++
      [⟨.id s.counter, ρ.name, p, deletableSizeAt sub m, [p ++ m.value]⟩] := by
  unfold processRecognizer
  simp only [hf]
  by_cases hp : (ρ.recognize.any fun mm => markerExists sub mm) = true
  · simp only [hp]
    exact Or.inr rfl
  · simp only [Bool.not_eq_true] at hp
    simp only [hp]
    exact Or.inl rfl

/-- Inserting an element not yet present conses it. -/
theorem insertIgnored_eq_cons (q : FsPath) (l : List FsPath) (h : q ∉ l) :
    insertIgnored q l = q :: l := by
  unfold insertIgnored
  rw [if_neg h]

/-- The invariant carried while one visited directory's recognizer loop
runs: no ignored path sits at or above the directory; every ignored path is
a one-step extension of a directory no remaining entry sits above, that
directory being the current one or one the current directory does not sit
above; ignored paths are pairwise independent; every collected match holds
a single claimed path from the ignored set; and all claimed paths are
pairwise independent. -/
structure EntryInv (p : FsPath) (es' : List (FsPath × FsTree))
    (s : ScanState) : Prop where
  skip : ∀ q ∈ s.ignored, ¬ q <+: p
  shape : ∀ q ∈ s.ignored, ∃ d n, q = d ++ [n] ∧
    (∀ e ∈ es', ¬ e.1 <+: d) ∧ (d = p ∨ ¬ p <+: d)
  pair : s.ignored.Pairwise pathsIndep
  claims : ∀ r ∈ s.results, ∃ q, r.deletable = [q] ∧ q ∈ s.ignored
  good : (s.results.flatMap (·.deletable)).Pairwise pathsIndep

/-- The recognizer loop at one visited directory preserves the invariant,
given single-component deletable markers, pairwise-disjoint marker values
across recognizers, and the fact that no remaining entry sits at or above
the current directory. -/
theorem innerFold_inv (p : FsPath) (sub : FsTree)
    (es' : List (FsPath × FsTree)) (hlater : ∀ e ∈ es', ¬ e.1 <+: p) :
    ∀ (ρs : List GarbageRecognizer) (s : ScanState),
    (∀ ρ ∈ ρs, ∀ m ∈ ρ.delete, (FileType.value m).length = 1) →
    ρs.Pairwise (fun ρ ρ' => ∀ m ∈ ρ.delete, ∀ m' ∈ ρ'.delete,
      m.value ≠ m'.value) →
    EntryInv p es' s →
    (∀ q ∈ s.ignored, ∀ ρ ∈ ρs, ∀ m ∈ ρ.delete, q ≠ p ++ m.value) →
    EntryInv p es' (ρs.foldl (processRecognizer p sub) s) := by
  intro ρs
  induction ρs with
  | nil =>
    intro s _ _ hinv _
    exact hinv
  | cons ρ ρs' ih =>
    intro s hsingle hdisj hinv havoid
    simp only [List.foldl_cons]
    rw [List.pairwise_cons] at hdisj
    rcases hfc : ρ.delete.find? (fun mm => markerExists sub mm) with _ | m
    · rw [processRecognizer_eq_of_find_none p sub s ρ hfc]
      exact ih s (fun ρ' h' => hsingle ρ' (List.mem_cons_of_mem ρ h'))
        hdisj.2 hinv
        (fun q hq ρ' h' => havoid q hq ρ' (List.mem_cons_of_mem ρ h'))
    · have hm : m ∈ ρ.delete := List.mem_of_find?_eq_some hfc
      obtain ⟨n_new, hval⟩ := List.length_eq_one.mp
        (hsingle ρ (List.mem_cons_self ρ ρs') m hm)
      have hnotmem : (p ++ m.value) ∉ s.ignored := fun hq =>
        havoid (p ++ m.value) hq ρ (List.mem_cons_self ρ ρs') m hm rfl
      have hig : (processRecognizer p sub s ρ).ignored =
          (p ++ m.value) :: s.ignored := by
        rw [processRecognizer_ignored_of_find_some p sub s ρ m hfc,
          insertIgnored_eq_cons _ _ hnotmem]
      have hkey : ∀ q ∈ s.ignored, pathsIndep q (p ++ m.value) := by
        intro q hq
        obtain ⟨d, n, hqe, hdes, hdp⟩ := hinv.shape q hq
        constructor
        · intro hcon
          rw [hval] at hcon
          rcases prefix_snoc q p n_new hcon with h1 | h1
          · exact hinv.skip q hq h1
          · rw [← hval] at h1
            rw [← h1] at hnotmem
            exact hnotmem hq
        · intro hcon
          rw [hqe, hval] at hcon
          rcases prefix_snoc (p ++ [n_new]) d n hcon with h1 | h1
          · have hpd : p <+: d := (p.prefix_append [n_new]).trans h1
            rcases hdp with h2 | h2
            · rw [h2] at h1
              have := h1.length_le
              simp at this
            · exact h2 hpd
          · obtain ⟨hdp2, _⟩ := snoc_inj p d n_new n h1
            rw [← hval] at h1
            rw [hqe, ← h1] at hq
            exact hnotmem hq
      have hskipnew : ¬ (p ++ m.value) <+: p := by
        intro hcon
        have := hcon.length_le
        rw [hval] at this
        simp at this
      have hinv' : EntryInv p es' (processRecognizer p sub s ρ) := by
        refine ⟨?_, ?_, ?_, ?_, ?_⟩
        · intro q hq
          rw [hig] at hq
          rcases List.mem_cons.mp hq with h1 | h1
          · rw [h1]
            exact hskipnew
          · exact hinv.skip q h1
        · intro q hq
          rw [hig] at hq
          rcases List.mem_cons.mp hq with h1 | h1
          · exact ⟨p, n_new, by rw [h1, hval], hlater, Or.inl rfl⟩
          · obtain ⟨d, n, hqe, hdes, hdp⟩ := hinv.shape q h1
            exact ⟨d, n, hqe, hdes, hdp⟩
        · rw [hig]
          rw [List.pairwise_cons]
          refine ⟨?_, hinv.pair⟩
          intro q hq
          have h := hkey q hq
          exact ⟨h.2, h.1⟩
        · intro r hr
          rcases processRecognizer_results_of_find_some p sub s ρ m hfc
            with hres | hres
          · rw [hres] at hr
            obtain ⟨q, hq1, hq2⟩ := hinv.claims r hr
            exact ⟨q, hq1, by rw [hig]; exact List.mem_cons_of_mem _ hq2⟩
          · rw [hres] at hr
            rcases List.mem_append.mp hr with h1 | h1
            · obtain ⟨q, hq1, hq2⟩ := hinv.claims r h1
              exact ⟨q, hq1, by rw [hig]; exact List.mem_cons_of_mem _ hq2⟩
            · have := List.mem_singleton.mp h1
              subst this
              exact ⟨p ++ m.value, rfl, by rw [hig]; exact List.mem_cons_self _ _⟩
        · rcases processRecognizer_results_of_find_some p sub s ρ m hfc
            with hres | hres
          · rw [hres]
            exact hinv.good
          · rw [hres, List.flatMap_append]
            rw [List.pairwise_append]
            refine ⟨hinv.good, by simp, ?_⟩
            intro q1 hq1 q2 hq2
            rw [List.mem_flatMap] at hq1
            obtain ⟨r1, hr1, hq1r⟩ := hq1
            obtain ⟨qq, hqq1, hqq2⟩ := hinv.claims r1 hr1
            rw [hqq1, List.mem_singleton] at hq1r
            simp only [List.flatMap_cons, List.flatMap_nil,
              List.append_nil, List.mem_singleton] at hq2
            rw [hq1r, hq2]
            exact hkey qq hqq2
      have havoid' : ∀ q ∈ (processRecognizer p sub s ρ).ignored,
          ∀ ρ' ∈ ρs', ∀ m' ∈ ρ'.delete, q ≠ p ++ m'.value := by
        intro q hq ρ' hρ' m' hm' hcon
        rw [hig] at hq
        rcases List.mem_cons.mp hq with h1 | h1
        · rw [h1] at hcon
          have := List.append_cancel_left hcon
          exact hdisj.1 ρ' hρ' m hm m' hm' this
        · exact havoid q h1 ρ' (List.mem_cons_of_mem ρ hρ') m' hm' hcon
      exact ih (processRecognizer p sub s ρ)
        (fun ρ' h' => hsingle ρ' (List.mem_cons_of_mem ρ h'))
        hdisj.2 hinv' havoid'

/-- The invariant carried across walk entries. -/
structure OuterInv (es : List (FsPath × FsTree)) (s : ScanState) : Prop where
  shape : ∀ q ∈ s.ignored, ∃ d n, q = d ++ [n] ∧ ∀ e ∈ es, ¬ e.1 <+: d
  pair : s.ignored.Pairwise pathsIndep
  claims : ∀ r ∈ s.results, ∃ q, r.deletable = [q] ∧ q ∈ s.ignored
  good : (s.results.flatMap (·.deletable)).Pairwise pathsIndep

/-- The walk fold preserves the invariant over a pre-order entry list. -/
theorem outerFold_inv (recs : List GarbageRecognizer)
    (hsingle : ∀ ρ ∈ recs, ∀ m ∈ ρ.delete, (FileType.value m).length = 1)
    (hdisj : recs.Pairwise fun ρ ρ' => ∀ m ∈ ρ.delete, ∀ m' ∈ ρ'.delete,
      m.value ≠ m'.value) :
    ∀ (es : List (FsPath × FsTree)) (s : ScanState),
    es.Pairwise (fun e1 e2 => ¬ e2.1 <+: e1.1) →
    OuterInv es s →
    OuterInv [] (es.foldl (processEntry recs) s) := by
  intro es
  induction es with
  | nil =>
    intro s _ hinv
    exact hinv
  | cons e es' ih =>
    intro s hpw hinv
    simp only [List.foldl_cons]
    rw [List.pairwise_cons] at hpw
    have hweak : OuterInv es' s :=
      ⟨fun q hq => by
        obtain ⟨d, n, h1, h2⟩ := hinv.shape q hq
        exact ⟨d, n, h1, fun e' he' => h2 e' (List.mem_cons_of_mem e he')⟩,
       hinv.pair, hinv.claims, hinv.good⟩
    obtain ⟨p, et⟩ := e
    cases et with
    | file len =>
      rw [show processEntry recs s (p, FsTree.file len) = s from rfl]
      exact ih s hpw.2 hweak
    | dir cs =>
      by_cases hig : s.ignored.any (fun q => q.isPrefixOf p) = true
      · have hstate : processEntry recs s (p, FsTree.dir cs) = s := by
          unfold processEntry
          simp only [hig, if_pos]
        rw [hstate]
        exact ih s hpw.2 hweak
      · have hskip : ∀ q ∈ s.ignored, ¬ q <+: p := by
          intro q hq hcon
          apply hig
          rw [List.any_eq_true]
          exact ⟨q, hq, by rw [List.isPrefixOf_iff_prefix]; exact hcon⟩
        have hstate : processEntry recs s (p, FsTree.dir cs) =
            recs.foldl (processRecognizer p (FsTree.dir cs)) s := by
          unfold processEntry
          simp only [Bool.not_eq_true] at hig
          simp only [hig]
          rfl
        have hlater : ∀ e' ∈ es', ¬ e'.1 <+: p := fun e' he' => hpw.1 e' he'
        have hentry : EntryInv p es' s := by
          refine ⟨hskip, ?_, hinv.pair, hinv.claims, hinv.good⟩
          intro q hq
          obtain ⟨d, n, h1, h2⟩ := hinv.shape q hq
          refine ⟨d, n, h1,
            fun e' he' => h2 e' (List.mem_cons_of_mem _ he'), ?_⟩
          exact Or.inr (h2 (p, FsTree.dir cs) (List.mem_cons_self _ _))
        have havoid0 : ∀ q ∈ s.ignored, ∀ ρ ∈ recs, ∀ m ∈ ρ.delete,
            q ≠ p ++ m.value := by
          intro q hq ρ hρ m hm hcon
          obtain ⟨d, n, h1, h2⟩ := hinv.shape q hq
          obtain ⟨n', hval⟩ := List.length_eq_one.mp (hsingle ρ hρ m hm)
          rw [h1, hval] at hcon
          obtain ⟨hdp, _⟩ := snoc_inj d p n n' hcon
          exact h2 (p, FsTree.dir cs) (List.mem_cons_self _ _)
            (by rw [hdp])
        have hfold := innerFold_inv p (FsTree.dir cs) es' hlater recs s
          hsingle hdisj hentry havoid0
        rw [hstate]
        apply ih _ hpw.2
        exact ⟨fun q hq => by
            obtain ⟨d, n, h1, h2, _⟩ := hfold.shape q hq
            exact ⟨d, n, h1, h2⟩,
          hfold.pair, hfold.claims, hfold.good⟩

/-- C2 amended: on every well-formed tree, provided every recognizer's
deletable markers are single-component and no two distinct recognizers share
a deletable marker value (true of the built-in registry), no two deletable
paths reported by one scan overlap: none is equal to or a descendant of
another, across matches and within a match. -/
theorem c2_pruning_amended (root : FsPath) (t : FsTree)
    (recs : List GarbageRecognizer) (hwf : t.wfb = true)
    (hsingle : ∀ ρ ∈ recs, ∀ m ∈ ρ.delete, (FileType.value m).length = 1)
    (hdisj : recs.Pairwise fun ρ ρ' => ∀ m ∈ ρ.delete, ∀ m' ∈ ρ'.delete,
      m.value ≠ m'.value) :
    deletableOverlapFree (find_garbage_in_directory root t recs) := by
  unfold deletableOverlapFree find_garbage_in_directory
  have hinit : OuterInv (walk root t) ⟨[], [], 0⟩ := by
    refine ⟨?_, ?_, ?_, ?_⟩
    · intro q hq
      exact absurd hq (List.not_mem_nil q)
    · exact List.Pairwise.nil
    · intro r hr
      exact absurd hr (List.not_mem_nil r)
    · exact List.Pairwise.nil
  exact (outerFold_inv recs hsingle hdisj (walk root t) ⟨[], [], 0⟩
    (walk_pairwise root t hwf) hinit).good

/-- Two sibling projects, one of which nests a would-be match inside its own
deletable subtree (pruned during the walk). -/
def twoProjTree : FsTree :=
  .dir (.cons "a"
    (.dir (.cons "Cargo.toml" (.file 1)
      (.cons "target"
        (.dir (.cons "sub"
          (.dir (.cons "package.json" (.file 1)
            (.cons "node_modules" (.dir .nil) .nil)))
          .nil))
        .nil)))
    (.cons "b"
      (.dir (.cons "pubspec.yaml" (.file 1)
        (.cons "build" (.dir .nil) .nil)))
      .nil))

/-- Witness for C2 amended at concrete inputs: scanning the two-project tree
with the full built-in registry (whose deletable markers are
single-component and pairwise distinct) yields overlap-free deletable
subtrees. -/
theorem c2_pruning_witness :
    deletableOverlapFree
      (find_garbage_in_directory ["r"] twoProjTree available_recognizer) :=
  c2_pruning_amended ["r"] twoProjTree available_recognizer
    (by decide) (by decide) (by decide)

end Wsg
